import Mathlib

/-!
# WiFiFileTransfer: cipher engine, sender loop and receiver loop

A shallow embedding of `encryption.c`, `decryption.c` and the transfer core of
`file_transfer.c`.

Buffers are lists of bytes (`List Nat`, each entry below 256 where it matters),
C `int` lengths are integers (no buffer of this program exceeds 4112 bytes).
The OpenSSL `EVP_*` calls are modelled by their behaviour for a 16-byte block
cipher in CBC mode with padding enabled; the AES-256 block transform itself is
a parameter (`BlockCipher`).  `EVP_CIPHER_CTX_new` is taken to return a context.
-/

namespace WiFiFileTransfer

/-! ## Constants of `file_transfer.c` -/

def MAX_PATH : Nat := 1024
def MAX_BUFFER : Nat := 4096
def AES_KEY_SIZE : Nat := 32
def AES_BLOCK_SIZE : Nat := 16

/-- The receiving directory `RECEIVE_DIR`, "received_files". -/
def RECEIVE_DIR : List Nat := [114, 101, 99, 101, 105, 118, 101, 100, 95, 102, 105, 108, 101, 115]

/-! ## The block cipher behind `EVP_aes_256_cbc()` -/

/-- A buffer of exactly `n` unsigned chars. -/
def IsBytes (n : Nat) (l : List Nat) : Prop := l.length = n ∧ ∀ x ∈ l, x < 256

instance (n : Nat) (l : List Nat) : Decidable (IsBytes n l) := by
  unfold IsBytes; exact inferInstance

/-- The raw block transform of the cipher: `enc key block` and `dec key block`
on one 16-byte block under a 32-byte key. -/
structure BlockCipher where
  enc : List Nat → List Nat → List Nat
  dec : List Nat → List Nat → List Nat

/-- What is assumed of the block transform: on 16-byte blocks under a 32-byte
key both directions yield 16-byte blocks and `dec` undoes `enc`. -/
def IsBlockCipher (c : BlockCipher) : Prop :=
  ∀ k b, IsBytes 32 k → IsBytes 16 b →
    IsBytes 16 (c.enc k b) ∧ IsBytes 16 (c.dec k b) ∧ c.dec k (c.enc k b) = b

/-- Bytewise exclusive or of two buffers. -/
def xor_block (a b : List Nat) : List Nat := List.zipWith (fun x y => x ^^^ y) a b

/-- CBC encryption of `n` whole blocks of `inp` with chaining value `iv`;
returns the ciphertext and the next chaining value. -/
def cbc_encrypt (c : BlockCipher) (key : List Nat) : Nat → List Nat → List Nat → List Nat × List Nat
  | 0, iv, _ => ([], iv)
  | n + 1, iv, inp =>
    let blk := c.enc key (xor_block (inp.take 16) iv)
    let r := cbc_encrypt c key n blk (inp.drop 16)
    (blk ++ r.1, r.2)

/-- CBC decryption of `n` whole blocks of `inp` with chaining value `iv`;
returns the plaintext and the next chaining value. -/
def cbc_decrypt (c : BlockCipher) (key : List Nat) : Nat → List Nat → List Nat → List Nat × List Nat
  | 0, iv, _ => ([], iv)
  | n + 1, iv, inp =>
    let blk := xor_block (c.dec key (inp.take 16)) iv
    let r := cbc_decrypt c key n (inp.take 16) (inp.drop 16)
    (blk ++ r.1, r.2)

/-! ## The `EVP_*` layer -/

/-- The fields of OpenSSL's cipher context that the CBC calls use: direction,
key, chaining value, the partial block `buf` (`buf_len` is its length) and the
held-back block `final` with its flag. -/
structure EVP_CIPHER_CTX where
  encrypt : Bool
  key : List Nat
  iv : List Nat
  buf : List Nat
  final : List Nat
  final_used : Bool

/-- Outcome of an `EVP_*` call: the return value, the context afterwards and the
bytes written to `out` (`*outl` is their number). -/
structure EvpResult where
  ret : Int
  ctx : EVP_CIPHER_CTX
  out : List Nat

/-- `EVP_CIPHER_CTX_new`: a zeroed context. -/
def EVP_CIPHER_CTX_new : EVP_CIPHER_CTX :=
  { encrypt := false, key := [], iv := [], buf := [], final := [], final_used := false }

/-- `EVP_EncryptInit_ex(ctx, EVP_aes_256_cbc(), NULL, key, iv)`. -/
def EVP_EncryptInit_ex (ctx : EVP_CIPHER_CTX) (key iv : List Nat) : EvpResult :=
  { ret := 1
    ctx := { ctx with encrypt := true, key := key, iv := iv, buf := [], final_used := false }
    out := [] }

/-- `EVP_DecryptInit_ex(ctx, EVP_aes_256_cbc(), NULL, key, iv)`. -/
def EVP_DecryptInit_ex (ctx : EVP_CIPHER_CTX) (key iv : List Nat) : EvpResult :=
  { ret := 1
    ctx := { ctx with encrypt := false, key := key, iv := iv, buf := [], final_used := false }
    out := [] }

/-- The cipher's `do_cipher` on `inp`, a whole number of blocks, in the
direction of the context. -/
def do_cipher (c : BlockCipher) (ctx : EVP_CIPHER_CTX) (inp : List Nat) : EVP_CIPHER_CTX × List Nat :=
  let r := if ctx.encrypt then cbc_encrypt c ctx.key (inp.length / 16) ctx.iv inp
           else cbc_decrypt c ctx.key (inp.length / 16) ctx.iv inp
  ({ ctx with iv := r.2 }, r.1)

/-- The update step shared by both directions: the buffered partial block
followed by the input is processed up to the last whole block, the rest stays
in `buf`. -/
def evp_EncryptDecryptUpdate (c : BlockCipher) (ctx : EVP_CIPHER_CTX) (inp : List Nat) : EvpResult :=
  if inp.length = 0 then { ret := 1, ctx := ctx, out := [] } else
  let all := ctx.buf ++ inp
  let whole := all.length / 16 * 16
  let r := do_cipher c ctx (all.take whole)
  { ret := 1, ctx := { r.1 with buf := all.drop whole }, out := r.2 }

/-- `EVP_EncryptUpdate(ctx, out, &outl, in, inl)`. -/
def EVP_EncryptUpdate (c : BlockCipher) (ctx : EVP_CIPHER_CTX) (inp : List Nat) : EvpResult :=
  if !ctx.encrypt then { ret := 0, ctx := ctx, out := [] } else
  evp_EncryptDecryptUpdate c ctx inp

/-- `EVP_EncryptFinal_ex(ctx, out, &outl)`: the partial block is filled with
`n = 16 - buf_len` bytes of value `n` and encrypted. -/
def EVP_EncryptFinal_ex (c : BlockCipher) (ctx : EVP_CIPHER_CTX) : EvpResult :=
  if !ctx.encrypt then { ret := 0, ctx := ctx, out := [] } else
  let n := 16 - ctx.buf.length
  let r := do_cipher c ctx (ctx.buf ++ List.replicate n n)
  { ret := 1, ctx := r.1, out := r.2 }

/-- The padding `EVP_EncryptFinal_ex` appends to a plaintext of `n` bytes. -/
def pkcs_pad (n : Nat) : List Nat := List.replicate (16 - n % 16) (16 - n % 16)

/-- `EVP_DecryptUpdate(ctx, out, &outl, in, inl)`: as the shared update, but when
the data decrypted so far ends on a block boundary the last block is held back
in `final` (it may be the padding block) and a block held back earlier is
released first. -/
def EVP_DecryptUpdate (c : BlockCipher) (ctx : EVP_CIPHER_CTX) (inp : List Nat) : EvpResult :=
  if ctx.encrypt then { ret := 0, ctx := ctx, out := [] } else
  if inp.length = 0 then { ret := 1, ctx := ctx, out := [] } else
  let pre := if ctx.final_used then ctx.final else []
  let r := evp_EncryptDecryptUpdate c ctx inp
  if r.ctx.buf.length = 0 then
    { ret := 1
      ctx := { r.ctx with final_used := true, final := r.out.drop (r.out.length - 16) }
      out := pre ++ r.out.take (r.out.length - 16) }
  else
    { ret := 1, ctx := { r.ctx with final_used := false }, out := pre ++ r.out }

/-- The padding check of `EVP_DecryptFinal_ex` on the held-back block: the last
byte `n` must be in `1..16` and the last `n` bytes must all equal `n`. -/
def padding_ok (final : List Nat) : Bool :=
  let n := final.getLastD 0
  n != 0 && decide (n ≤ 16) && (final.drop (16 - n)).all (fun x => x == n)

/-- `EVP_DecryptFinal_ex(ctx, out, &outl)`: fails (with `*outl = 0`) when a
partial block is left or no block was held back or the padding is wrong;
otherwise writes the held-back block without its padding. -/
def EVP_DecryptFinal_ex (ctx : EVP_CIPHER_CTX) : EvpResult :=
  if ctx.encrypt then { ret := 0, ctx := ctx, out := [] } else
  if ctx.buf.length ≠ 0 || !ctx.final_used then { ret := 0, ctx := ctx, out := [] } else
  if !padding_ok ctx.final then { ret := 0, ctx := ctx, out := [] } else
  let n := ctx.final.getLastD 0
  { ret := 1, ctx := ctx, out := ctx.final.take (16 - n) }

/-! ## `encryption.c` -/

/-- Result of a cipher-engine call: the returned `int` and the bytes the call
left in the caller's output buffer. -/
structure CipherResult where
  ret : Int
  out : List Nat
deriving DecidableEq, Repr

/-- `encrypt_buffer(plaintext, plaintext_len, key, iv, ciphertext)`; the length
argument is the length of `plaintext`. -/
def encrypt_buffer (c : BlockCipher) (plaintext key iv : List Nat) : CipherResult :=
  let ctx := EVP_CIPHER_CTX_new
  let r0 := EVP_EncryptInit_ex ctx key iv
  if r0.ret ≠ 1 then { ret := -1, out := [] } else
  let r1 := EVP_EncryptUpdate c r0.ctx plaintext
  if r1.ret ≠ 1 then { ret := -1, out := r1.out } else
  let len : Int := r1.out.length
  let ciphertext_len := len
  let r2 := EVP_EncryptFinal_ex c r1.ctx
  if r2.ret ≠ 1 then { ret := -1, out := r1.out ++ r2.out } else
  { ret := ciphertext_len + r2.out.length, out := r1.out ++ r2.out }

/-! ## `decryption.c` -/

/-- The messages `decrypt_buffer` passes to `handle_error`. -/
inductive CipherLog
  | init_failed
  | update_failed
  | final_failed
deriving DecidableEq, Repr

/-- `handle_error(message)` of `file_transfer.c`: prints and logs the message and
returns to its caller. -/
def handle_error (log : List CipherLog) (message : CipherLog) : List CipherLog :=
  log ++ [message]

/-- Result of `decrypt_buffer`: the returned `int`, the first `ret` bytes of the
`plaintext` buffer, and the messages logged on the way. -/
structure DecryptResult where
  ret : Int
  out : List Nat
  log : List CipherLog
deriving DecidableEq, Repr

/-- `decrypt_buffer(ciphertext, ciphertext_len, key, iv, plaintext)`; the length
argument is the length of `ciphertext`.  A failing stage is logged and the
function goes on to the next statement. -/
def decrypt_buffer (c : BlockCipher) (ciphertext key iv : List Nat) : DecryptResult :=
  let ctx := EVP_CIPHER_CTX_new
  let log0 : List CipherLog := []
  let r0 := EVP_DecryptInit_ex ctx key iv
  let log1 := if r0.ret ≠ 1 then handle_error log0 .init_failed else log0
  let r1 := EVP_DecryptUpdate c r0.ctx ciphertext
  let log2 := if r1.ret ≠ 1 then handle_error log1 .update_failed else log1
  let len : Int := r1.out.length
  let plaintext_len := len
  let r2 := EVP_DecryptFinal_ex r1.ctx
  let log3 := if r2.ret ≠ 1 then handle_error log2 .final_failed else log2
  { ret := plaintext_len + r2.out.length, out := r1.out ++ r2.out, log := log3 }

/-! ## `file_transfer.c`: the sender -/

/-- `strrchr(s, ch)`: the part of the C string `s` that starts at the last
occurrence of `ch`, if there is one. -/
def strrchr : List Nat → Nat → Option (List Nat)
  | [], _ => none
  | x :: xs, ch =>
    match strrchr xs ch with
    | some r => some r
    | none => if x = ch then some (x :: xs) else none

/-- What the system answers to the calls of `send_file_socket`: whether `open`,
`socket`, `inet_pton` and `connect` succeed, the bytes `RAND_bytes` produces for
the key and the iv (`none` when it fails), the outcome of each successive `read`
of the local file (`some bytes` for a read that returns `bytes.length`, `none`
for one that returns -1; after the last entry `read` returns 0), and whether the
`k`-th `send` on the socket succeeds (a `send` that succeeds on the blocking
socket writes all the bytes it was given). -/
structure SenderEnv where
  open_ok : Bool
  socket_ok : Bool
  inet_pton_ok : Bool
  connect_ok : Bool
  rand_key : Option (List Nat)
  rand_iv : Option (List Nat)
  reads : List (Option (List Nat))
  send_ok : Nat → Bool

/-- Result of `send_file_socket`: the returned `int` and the bytes written to the
connection, in order. -/
structure SendResult where
  ret : Int
  wire : List Nat
deriving DecidableEq, Repr

/-- The `while ((bytes_read = read(local_file, buffer, sizeof(buffer))) > 0)` loop
of `send_file_socket`; `k` counts the `send` calls made so far. -/
def send_loop (c : BlockCipher) (key iv : List Nat) (send_ok : Nat → Bool) :
    List (Option (List Nat)) → Nat → List Nat → SendResult
  | [], _, wire => { ret := 1, wire := wire }
  | none :: _, _, wire => { ret := 1, wire := wire }
  | some bytes :: rest, k, wire =>
    let buffer := bytes.take MAX_BUFFER
    let bytes_read : Int := buffer.length
    if ¬ bytes_read > 0 then { ret := 1, wire := wire } else
    let e := encrypt_buffer c buffer key iv
    let encrypted_bytes := e.ret
    if encrypted_bytes < 0 then { ret := 0, wire := wire } else
    if !send_ok k then { ret := 0, wire := wire } else
    send_loop c key iv send_ok rest (k + 1) (wire ++ e.out.take encrypted_bytes.toNat)

/-- `send_file_socket(target_ip, file_path, port)`; `file_path` is the C string
without its terminator. -/
def send_file_socket (c : BlockCipher) (env : SenderEnv) (file_path : List Nat) : SendResult :=
  if !env.open_ok then { ret := 0, wire := [] } else
  if !env.socket_ok then { ret := 0, wire := [] } else
  if !env.inet_pton_ok then { ret := 0, wire := [] } else
  if !env.connect_ok then { ret := 0, wire := [] } else
  let filename :=
    match strrchr file_path 47 with
    | some r => r.drop 1
    | none => file_path
  if !env.send_ok 0 then { ret := 0, wire := [] } else
  let wire := filename ++ [0]
  match env.rand_key, env.rand_iv with
  | some key, some iv =>
    if !env.send_ok 1 then { ret := 0, wire := wire } else
    if !env.send_ok 2 then { ret := 0, wire := wire ++ key } else
    send_loop c key iv env.send_ok env.reads 3 (wire ++ key ++ iv)
  | _, _ => { ret := 0, wire := wire }

/-! ## `file_transfer.c`: the receiver -/

/-- The part of `FileTransferConfig` the receiver loop reads: the string held in
`shared_directory`. -/
structure FileTransferConfig where
  shared_directory : List Nat

/-- The file system: the content of the file at each path, if there is one. -/
abbrev FS := List Nat → Option (List Nat)

/-- `fopen(path, "wb")` when it succeeds: the file exists and is empty. -/
def fopen_wb (fs : FS) (path : List Nat) : FS :=
  fun p => if p = path then some [] else fs p

/-- `fwrite(buf, 1, n, file)` on the file opened at `path`: appends the bytes (the
loop does not look at its result; writes are taken to succeed). -/
def fwrite (fs : FS) (path : List Nat) (bytes : List Nat) : FS :=
  fun p => if p = path then some ((fs p).getD [] ++ bytes) else fs p

/-- A connection as the receiver sees it: the outcome of each successive `recv`
(`some bytes` for a call that returns `bytes.length`, `none` for one that
returns -1); after the last entry the peer has closed and `recv` returns 0. -/
abbrev Conn := List (Option (List Nat))

/-- `recv(sock, buf, len, 0)`: the return value, the bytes placed in `buf` (never
more than `len`) and the rest of the connection. -/
def recv (conn : Conn) (len : Nat) : Int × List Nat × Conn :=
  match conn with
  | [] => (0, [], [])
  | none :: rest => (-1, [], rest)
  | some bytes :: rest => (((bytes.take len).length : Int), bytes.take len, rest)

/-- The string a `%s` conversion reads from a buffer: the bytes before the first
zero byte. -/
def c_str (buf : List Nat) : List Nat := buf.takeWhile (fun x => x != 0)

/-- `snprintf(filepath, size, "%s/%s", dir, name)` for the strings `dir` and
`name`: the string left in `filepath`, cut to `size - 1` characters. -/
def snprintf_path (size : Nat) (dir name : List Nat) : List Nat :=
  (dir ++ [47] ++ name).take (size - 1)

/-- An array after `recv` has placed `new` at its start: the bytes beyond stay
as they were. -/
def overwrite (old new : List Nat) : List Nat := new ++ old.drop new.length

/-- What the system answers to `file_receive_thread` besides the connections:
whether `socket`, `setsockopt`, `bind` and `listen` succeed at startup, whether
`fopen` of a path succeeds, and what the uninitialised `key` and `iv` arrays
hold before any session has written to them. -/
structure ReceiverEnv where
  socket_ok : Bool
  setsockopt_ok : Bool
  bind_ok : Bool
  listen_ok : Bool
  fopen_ok : List Nat → Bool
  key0 : List Nat
  iv0 : List Nat

/-- The calls of the receiver loop that an observer sees, in program order.
Sockets are named by the number of the `accept` call that returned them. -/
inductive Event
  | accept (sock : Nat)
  | accept_failed
  | recv_filename (sock : Nat) (n : Int)
  | recv_key (sock : Nat) (n : Int)
  | recv_iv (sock : Nat) (n : Int)
  | fopen (path : List Nat) (ok : Bool)
  | recv_data (sock : Nat) (n : Int)
  | fwrite (path : List Nat) (bytes : List Nat)
  | fclose (path : List Nat)
  | close (sock : Nat)
deriving DecidableEq, Repr

/-- The state the receiver loop acts on: the file system, the calls made so
far, and what the `key` and `iv` arrays of the loop body hold.  The arrays are
never initialised: they keep the bytes the last `recv` into them left, from one
session to the next (`none` while no session has written to them). -/
structure Receiver where
  fs : FS
  trace : List Event
  key : Option (List Nat)
  iv : Option (List Nat)

/-- Records a call. -/
def Receiver.emit (st : Receiver) (e : Event) : Receiver :=
  { st with trace := st.trace ++ [e] }

/-- The `key` array after a `recv` has left `k` in it. -/
def Receiver.set_key (st : Receiver) (k : List Nat) : Receiver :=
  { st with key := some k }

/-- The `iv` array after a `recv` has left `v` in it. -/
def Receiver.set_iv (st : Receiver) (v : List Nat) : Receiver :=
  { st with iv := some v }

/-- The `while ((bytes_received = recv(client_sock, buffer, sizeof(buffer), 0)) > 0)`
loop of `file_receive_thread`: each chunk is decrypted on its own and what
`decrypt_buffer` returns is written to the file. -/
def recv_loop (c : BlockCipher) (sock : Nat) (filepath key iv : List Nat) :
    Conn → Receiver → Receiver
  | [], st => st.emit (.recv_data sock 0)
  | none :: _, st => st.emit (.recv_data sock (-1))
  | some bytes :: rest, st =>
    let buffer := bytes.take MAX_BUFFER
    let bytes_received : Int := buffer.length
    let st := st.emit (.recv_data sock bytes_received)
    if ¬ bytes_received > 0 then st else
    let d := decrypt_buffer c buffer key iv
    let decrypted_bytes := d.ret
    let written := d.out.take decrypted_bytes.toNat
    let st := { st with fs := fwrite st.fs filepath written,
                        trace := st.trace ++ [.fwrite filepath written] }
    recv_loop c sock filepath key iv rest st

/-- The body of the `while (1)` loop of `file_receive_thread` after `accept` has
returned the connection `sock`.  A `recv` into `key` or `iv` that returns fewer
bytes than the array has leaves the rest of the array as the previous session
left it. -/
def serve_connection (c : BlockCipher) (config : FileTransferConfig) (env : ReceiverEnv)
    (sock : Nat) (conn : Conn) (st : Receiver) : Receiver :=
  let r := recv conn (MAX_BUFFER - 1)
  let filename_len := r.1
  let st := st.emit (.recv_filename sock filename_len)
  if filename_len ≤ 0 then st.emit (.close sock) else
  let buffer := r.2.1 ++ [0]
  let filepath := snprintf_path MAX_PATH config.shared_directory (c_str buffer)
  let rk := recv r.2.2 AES_KEY_SIZE
  let st := st.emit (.recv_key sock rk.1)
  if rk.1 ≤ 0 then st.emit (.close sock) else
  let key := overwrite (st.key.getD env.key0) rk.2.1
  let st := st.set_key key
  let ri := recv rk.2.2 AES_BLOCK_SIZE
  let st := st.emit (.recv_iv sock ri.1)
  if ri.1 ≤ 0 then st.emit (.close sock) else
  let iv := overwrite (st.iv.getD env.iv0) ri.2.1
  let st := st.set_iv iv
  if !env.fopen_ok filepath then (st.emit (.fopen filepath false)).emit (.close sock) else
  let st : Receiver := { st with fs := fopen_wb st.fs filepath,
                                 trace := st.trace ++ [.fopen filepath true] }
  let st := recv_loop c sock filepath key iv ri.2.2 st
  (st.emit (.fclose filepath)).emit (.close sock)

/-- The `while (1)` loop of `file_receive_thread` over the outcomes of its
successive `accept` calls (`none` for a failed call); `k` numbers the calls. -/
def receiver_loop (c : BlockCipher) (config : FileTransferConfig) (env : ReceiverEnv) :
    List (Option Conn) → Nat → Receiver → Receiver
  | [], _, st => st
  | none :: rest, k, st => receiver_loop c config env rest (k + 1) (st.emit .accept_failed)
  | some conn :: rest, k, st =>
    receiver_loop c config env rest (k + 1)
      (serve_connection c config env k conn (st.emit (.accept k)))

/-- The receiver before its first `accept`. -/
def Receiver.start (fs : FS) : Receiver := { fs := fs, trace := [], key := none, iv := none }

/-- `file_receive_thread(config)` run on the file system `fs` while `accept`
returns the outcomes `accepts`: the task ends at once when a startup call fails,
otherwise it enters the loop. -/
def file_receive_thread (c : BlockCipher) (config : FileTransferConfig) (env : ReceiverEnv)
    (accepts : List (Option Conn)) (fs : FS) : Receiver :=
  if !env.socket_ok then Receiver.start fs else
  if !env.setsockopt_ok then Receiver.start fs else
  if !env.bind_ok then Receiver.start fs else
  if !env.listen_ok then Receiver.start fs else
  receiver_loop c config env accepts 0 (Receiver.start fs)

/-! ## The receiver loop as a state machine -/

/-- The states of the receiver loop: waiting in `accept`, performing the
handshake on a connection, streaming a connection into its file. -/
inductive LoopState
  | Listening
  | Handshaking (sock : Nat)
  | Streaming (sock : Nat)
deriving DecidableEq, Repr

/-- The moves of the state machine `Listening → Handshaking → Streaming →
Listening`: a connection is accepted only in `Listening`, handshake and stream
calls concern the connection of the current state, and `Listening` is entered
again only by closing that connection.  `none` when the call is not allowed in
the state. -/
def loop_step : LoopState → Event → Option LoopState
  | .Listening, .accept s => some (.Handshaking s)
  | .Listening, .accept_failed => some .Listening
  | .Handshaking s, .recv_filename r _ => if r = s then some (.Handshaking s) else none
  | .Handshaking s, .recv_key r _ => if r = s then some (.Handshaking s) else none
  | .Handshaking s, .recv_iv r _ => if r = s then some (.Handshaking s) else none
  | .Handshaking s, .fopen _ ok => if ok then some (.Streaming s) else some (.Handshaking s)
  | .Handshaking s, .close r => if r = s then some .Listening else none
  | .Streaming s, .recv_data r _ => if r = s then some (.Streaming s) else none
  | .Streaming s, .fwrite _ _ => some (.Streaming s)
  | .Streaming s, .fclose _ => some (.Streaming s)
  | .Streaming s, .close r => if r = s then some .Listening else none
  | _, _ => none

/-- The state the machine reaches from `q` along a sequence of calls, if every
call is allowed where it occurs. -/
def loop_state : LoopState → List Event → Option LoopState
  | q, [] => some q
  | q, e :: t =>
    match loop_step q e with
    | some q2 => loop_state q2 t
    | none => none

/-- The effect of one call on the list of live connections. -/
def live_step (l : List Nat) : Event → List Nat
  | .accept s => s :: l
  | .close s => l.erase s
  | _ => l

/-- The connections accepted and not yet closed after a sequence of calls. -/
def live (t : List Event) : List Nat := t.foldl live_step []

/-- The bytes that the `fwrite` calls of a sequence of calls hand to the file at
`path`, in order. -/
def written (path : List Nat) : List Event → List Nat
  | [] => []
  | .fwrite p bytes :: t => if p = path then bytes ++ written path t else written path t
  | _ :: t => written path t

/-- The connection a state of the loop holds. -/
def LoopState.socks : LoopState → List Nat
  | .Listening => []
  | .Handshaking s => [s]
  | .Streaming s => [s]

/-! ## Concrete instances for evaluation -/

/-- A block transform that adds the key byte to each byte modulo 256; its
inverse subtracts it. -/
def toyCipher : BlockCipher :=
  { enc := fun k b => List.zipWith (fun x y => (x + y) % 256) b k
    dec := fun k b => List.zipWith (fun x y => (x + 256 - y % 256) % 256) b k }

/-- A sample 32-byte key. -/
def toyKey : List Nat := List.range 32

/-- A sample 16-byte iv. -/
def toyIv : List Nat := (List.range 16).map (fun i => 7 * i + 3)

/-- The environment in which every call of the sender succeeds, `RAND_bytes`
yields `key` and `iv`, and the reads of the file have the outcomes `reads`. -/
def senderEnvOk (key iv : List Nat) (reads : List (Option (List Nat))) : SenderEnv :=
  { open_ok := true, socket_ok := true, inet_pton_ok := true, connect_ok := true
    rand_key := some key, rand_iv := some iv, reads := reads, send_ok := fun _ => true }

/-- The configuration `main` sets up. -/
def mainConfig : FileTransferConfig := { shared_directory := RECEIVE_DIR }

/-- A receiver environment in which startup and every `fopen` succeed and the
`key` and `iv` arrays start zeroed. -/
def toyEnv : ReceiverEnv :=
  { socket_ok := true, setsockopt_ok := true, bind_ok := true, listen_ok := true
    fopen_ok := fun _ => true, key0 := List.replicate 32 0, iv0 := List.replicate 16 0 }

/-! ## Facts about buffers and the block transform -/

theorem xor_block_length (a b : List Nat) : (xor_block a b).length = min a.length b.length := by
  simp [xor_block]

theorem xor_block_isBytes {a b : List Nat} (ha : IsBytes 16 a) (hb : IsBytes 16 b) :
    IsBytes 16 (xor_block a b) := by
  refine ⟨by simp [xor_block_length, ha.1, hb.1], ?_⟩
  intro x hx
  simp only [xor_block, List.mem_iff_getElem, List.getElem_zipWith] at hx
  obtain ⟨i, hi, rfl⟩ := hx
  simp only [List.length_zipWith] at hi
  have h1 : a[i] < 2 ^ 8 := ha.2 _ (List.getElem_mem _)
  have h2 : b[i] < 2 ^ 8 := hb.2 _ (List.getElem_mem _)
  exact Nat.xor_lt_two_pow h1 h2

theorem xor_block_cancel : ∀ (a b : List Nat), a.length ≤ b.length →
    xor_block (xor_block a b) b = a
  | [], _, _ => by simp [xor_block]
  | _ :: _, [], h => by simp at h
  | x :: a, y :: b, h => by
    have ih := xor_block_cancel a b (by simpa using h)
    simp only [xor_block] at ih ⊢
    simp [ih, Nat.xor_cancel_right]

theorem isBytes_take_16 {inp : List Nat} (h : ∀ x ∈ inp, x < 256) (hl : 16 ≤ inp.length) :
    IsBytes 16 (inp.take 16) :=
  ⟨by simp [List.length_take]; omega, fun x hx => h x (List.mem_of_mem_take hx)⟩

/-- CBC encryption of `n` blocks yields `16 * n` bytes and a 16-byte chaining
value, and CBC decryption from the same chaining value gives the input back. -/
theorem cbc_encrypt_spec {c : BlockCipher} (hc : IsBlockCipher c) {key : List Nat}
    (hk : IsBytes 32 key) : ∀ (n : Nat) (iv inp : List Nat), IsBytes 16 iv →
    (∀ x ∈ inp, x < 256) → 16 * n ≤ inp.length →
    IsBytes (16 * n) (cbc_encrypt c key n iv inp).1 ∧
    IsBytes 16 (cbc_encrypt c key n iv inp).2 ∧
    cbc_decrypt c key n iv (cbc_encrypt c key n iv inp).1
      = (inp.take (16 * n), (cbc_encrypt c key n iv inp).2)
  | 0, iv, inp, hiv, _, _ => by
    simp only [cbc_encrypt, cbc_decrypt, Nat.mul_zero, List.take_zero, and_true]
    exact ⟨⟨rfl, by simp⟩, hiv⟩
  | n + 1, iv, inp, hiv, hinp, hl => by
    have hb : IsBytes 16 (inp.take 16) := isBytes_take_16 hinp (by omega)
    have hx : IsBytes 16 (xor_block (inp.take 16) iv) := xor_block_isBytes hb hiv
    obtain ⟨he, _, hde⟩ := hc key _ hk hx
    have hd : ∀ x ∈ inp.drop 16, x < 256 := fun x hx => hinp x (List.mem_of_mem_drop hx)
    obtain ⟨ih1, ih2, ih3⟩ := cbc_encrypt_spec hc hk n
      (c.enc key (xor_block (inp.take 16) iv)) (inp.drop 16) he hd
      (by simp [List.length_drop]; omega)
    have htake : ∀ r : List Nat,
        (c.enc key (xor_block (inp.take 16) iv) ++ r).take 16
          = c.enc key (xor_block (inp.take 16) iv) := fun r =>
      List.take_left' he.1
    have hdrop : ∀ r : List Nat,
        (c.enc key (xor_block (inp.take 16) iv) ++ r).drop 16 = r := fun r =>
      List.drop_left' he.1
    refine ⟨⟨?_, ?_⟩, ?_, ?_⟩
    · simp only [cbc_encrypt, List.length_append, he.1, ih1.1]; omega
    · intro x hx
      simp only [cbc_encrypt, List.mem_append] at hx
      rcases hx with hx | hx
      · exact he.2 x hx
      · exact ih1.2 x hx
    · simpa [cbc_encrypt] using ih2
    · simp only [cbc_encrypt, cbc_decrypt, htake, hdrop, hde, ih3]
      rw [xor_block_cancel _ _ (by rw [hb.1, hiv.1])]
      have : 16 * (n + 1) = 16 + 16 * n := by ring
      rw [this, List.take_add]

/-- CBC encryption of a buffer that starts with `m` whole blocks continues, after
those blocks, from the chaining value they leave. -/
theorem cbc_encrypt_append (c : BlockCipher) (key : List Nat) (n : Nat) (b : List Nat) :
    ∀ (m : Nat) (iv a : List Nat), a.length = 16 * m →
    cbc_encrypt c key (m + n) iv (a ++ b)
      = ((cbc_encrypt c key m iv a).1 ++ (cbc_encrypt c key n (cbc_encrypt c key m iv a).2 b).1,
         (cbc_encrypt c key n (cbc_encrypt c key m iv a).2 b).2)
  | 0, iv, a, ha => by
    have : a = [] := List.length_eq_zero.mp (by simpa using ha)
    subst this
    simp [cbc_encrypt]
  | m + 1, iv, a, ha => by
    have h1 : (a ++ b).take 16 = a.take 16 := by
      rw [List.take_append_of_le_length (by omega)]
    have h2 : (a ++ b).drop 16 = a.drop 16 ++ b := by
      rw [List.drop_append_of_le_length (by omega)]
    have ih := cbc_encrypt_append c key n b m (c.enc key (xor_block (a.take 16) iv))
      (a.drop 16) (by simp [List.length_drop]; omega)
    have e : m + 1 + n = (m + n) + 1 := by omega
    rw [e]
    simp only [cbc_encrypt, h1, h2, ih, List.append_assoc]

theorem take_whole_length (P : List Nat) : (P.take (P.length / 16 * 16)).length = 16 * (P.length / 16) := by
  rw [List.length_take]; omega

theorem drop_whole_length (P : List Nat) : (P.drop (P.length / 16 * 16)).length = P.length % 16 := by
  rw [List.length_drop]; omega

/-- The two stages of `encrypt_buffer` together are one CBC encryption of the
padded plaintext. -/
theorem encrypt_buffer_eq (c : BlockCipher) (P key iv : List Nat) :
    encrypt_buffer c P key iv =
      { ret := ((cbc_encrypt c key (P.length / 16 + 1) iv (P ++ pkcs_pad P.length)).1.length : Int)
        out := (cbc_encrypt c key (P.length / 16 + 1) iv (P ++ pkcs_pad P.length)).1 } := by
  have happ := cbc_encrypt_append c key 1 (P.drop (P.length / 16 * 16) ++ pkcs_pad P.length)
    (P.length / 16) iv (P.take (P.length / 16 * 16)) (take_whole_length P)
  rw [← List.append_assoc, List.take_append_drop] at happ
  have hlen : (P.drop (P.length / 16 * 16) ++ pkcs_pad P.length).length / 16 = 1 := by
    rw [List.length_append, drop_whole_length]
    simp only [pkcs_pad, List.length_replicate]
    omega
  have hlen2 : (P.take (P.length / 16 * 16)).length / 16 = P.length / 16 := by
    rw [take_whole_length]; omega
  by_cases hP : P.length = 0
  · have : P = [] := List.length_eq_zero.mp hP
    subst this
    simp [encrypt_buffer, EVP_EncryptInit_ex, EVP_EncryptUpdate, evp_EncryptDecryptUpdate,
      EVP_EncryptFinal_ex, do_cipher, EVP_CIPHER_CTX_new, pkcs_pad]
  · simp only [pkcs_pad, drop_whole_length] at hlen happ ⊢
    have a1 : (P.length / 16 * 16 ⊓ P.length) / 16 = P.length / 16 := by omega
    have a2 : P.length - P.length / 16 * 16 = P.length % 16 := by omega
    have a3 : (P.length % 16 + (16 - P.length % 16)) / 16 = 1 := by omega
    simp [encrypt_buffer, EVP_EncryptInit_ex, EVP_EncryptUpdate, evp_EncryptDecryptUpdate,
      EVP_EncryptFinal_ex, do_cipher, EVP_CIPHER_CTX_new, hP, happ, a1, a2, a3]

/-- On a ciphertext of `m + 1` whole blocks `decrypt_buffer` decrypts all of it,
holds the last block back and releases it without its padding when the padding
check passes; when the check fails it logs and returns the length without the
last block. -/
theorem decrypt_buffer_aligned (c : BlockCipher) (ct key iv : List Nat) (m : Nat)
    (h : ct.length = 16 * (m + 1)) :
    decrypt_buffer c ct key iv =
      (let Q := (cbc_decrypt c key (m + 1) iv ct).1
       let last := Q.drop (Q.length - 16)
       if padding_ok last then
         { ret := ((Q.take (Q.length - 16)).length : Int) + ((last.take (16 - last.getLastD 0)).length : Int)
           out := Q.take (Q.length - 16) ++ last.take (16 - last.getLastD 0)
           log := [] }
       else
         { ret := ((Q.take (Q.length - 16)).length : Int) + 0
           out := Q.take (Q.length - 16)
           log := [CipherLog.final_failed] }) := by
  have h0 : ct.length ≠ 0 := by omega
  have h1 : ct.length / 16 * 16 = ct.length := by omega
  have h2 : ct.length / 16 = m + 1 := by omega
  simp only [decrypt_buffer, EVP_DecryptInit_ex, EVP_DecryptUpdate, evp_EncryptDecryptUpdate,
    EVP_DecryptFinal_ex, do_cipher, EVP_CIPHER_CTX_new, h0, List.nil_append, h1]
  simp only [List.take_length, List.drop_length, h2]
  by_cases hp : padding_ok (List.drop ((cbc_decrypt c key (m + 1) iv ct).1.length - 16)
      (cbc_decrypt c key (m + 1) iv ct).1) = true
  · simp [hp, handle_error]
  · simp [hp, handle_error]

theorem getLastD_append_replicate (n : Nat) (hn : 0 < n) (buf : List Nat) :
    (buf ++ List.replicate n n).getLastD 0 = n := by
  obtain ⟨k, rfl⟩ : ∃ k, n = k + 1 := ⟨n - 1, by omega⟩
  rw [List.replicate_succ', ← List.append_assoc]
  simp

/-- A partial block completed by its padding passes the padding check, and
stripping the padding gives the partial block back. -/
theorem padding_ok_padded (buf : List Nat) (h : buf.length < 16) :
    padding_ok (buf ++ List.replicate (16 - buf.length) (16 - buf.length)) = true ∧
    (buf ++ List.replicate (16 - buf.length) (16 - buf.length)).getLastD 0 = 16 - buf.length ∧
    (buf ++ List.replicate (16 - buf.length) (16 - buf.length)).take
      (16 - (16 - buf.length)) = buf := by
  have hn : 0 < 16 - buf.length := by omega
  have hl := getLastD_append_replicate (16 - buf.length) hn buf
  have e : 16 - (16 - buf.length) = buf.length := by omega
  refine ⟨?_, hl, ?_⟩
  · simp only [padding_ok, hl, e, List.drop_left, List.all_replicate]
    simp
    omega
  · rw [e, List.take_left]

theorem pkcs_pad_length (n : Nat) : (pkcs_pad n).length = 16 - n % 16 := by
  simp [pkcs_pad]

theorem padded_length (P : List Nat) : (P ++ pkcs_pad P.length).length = 16 * (P.length / 16 + 1) := by
  rw [List.length_append, pkcs_pad_length]; omega

theorem padded_bytes {P : List Nat} (hP : ∀ x ∈ P, x < 256) : ∀ x ∈ P ++ pkcs_pad P.length, x < 256 := by
  intro x hx
  rcases List.mem_append.mp hx with h | h
  · exact hP x h
  · have := List.eq_of_mem_replicate h
    omega

theorem toyCipher_isBlockCipher : IsBlockCipher toyCipher := by
  intro k b hk hb
  have hlen : b.length ≤ k.length := by rw [hk.1, hb.1]; omega
  refine ⟨⟨by simp [toyCipher, hk.1, hb.1], ?_⟩, ⟨by simp [toyCipher, hk.1, hb.1], ?_⟩, ?_⟩
  · intro x hx
    simp only [toyCipher, List.mem_iff_getElem, List.getElem_zipWith] at hx
    obtain ⟨i, _, rfl⟩ := hx
    omega
  · intro x hx
    simp only [toyCipher, List.mem_iff_getElem, List.getElem_zipWith] at hx
    obtain ⟨i, _, rfl⟩ := hx
    omega
  · apply List.ext_getElem
    · simp [toyCipher]; omega
    · intro i h1 h2
      have hb2 : b[i] < 256 := hb.2 _ (List.getElem_mem _)
      simp only [toyCipher, List.getElem_zipWith]
      omega

/-! ## The cipher engine -/

/-- The CBC encryption of a padded plaintext, given to `decrypt_buffer` with the
same key and iv, is decrypted to the plaintext with no stage failing. -/
theorem decrypt_padded (c : BlockCipher) (hc : IsBlockCipher c)
    (P key iv : List Nat) (hP : ∀ x ∈ P, x < 256) (hk : IsBytes 32 key) (hiv : IsBytes 16 iv) :
    decrypt_buffer c (cbc_encrypt c key (P.length / 16 + 1) iv (P ++ pkcs_pad P.length)).1 key iv
      = { ret := (P.length : Int), out := P, log := [] } := by
  obtain ⟨hct, _, hdec⟩ := cbc_encrypt_spec hc hk (P.length / 16 + 1) iv
    (P ++ pkcs_pad P.length) hiv (padded_bytes hP) (by rw [padded_length])
  rw [decrypt_buffer_aligned c _ key iv (P.length / 16) hct.1]
  have hfull : (P ++ pkcs_pad P.length).take (16 * (P.length / 16 + 1)) = P ++ pkcs_pad P.length := by
    rw [← padded_length P, List.take_length]
  rw [hfull] at hdec
  simp only [hdec]
  have hq : (P ++ pkcs_pad P.length).length - 16 = P.length / 16 * 16 := by
    rw [padded_length]; omega
  have hle : P.length / 16 * 16 ≤ P.length := by omega
  have hdl := drop_whole_length P
  have hlt : (P.drop (P.length / 16 * 16)).length < 16 := by rw [hdl]; omega
  obtain ⟨p1, p2, p3⟩ := padding_ok_padded (P.drop (P.length / 16 * 16)) hlt
  rw [hdl] at p1 p2 p3
  have hlast : (P ++ pkcs_pad P.length).drop (P.length / 16 * 16)
      = P.drop (P.length / 16 * 16) ++ List.replicate (16 - P.length % 16) (16 - P.length % 16) := by
    rw [List.drop_append_of_le_length hle]; rfl
  have htk : (P ++ pkcs_pad P.length).take (P.length / 16 * 16) = P.take (P.length / 16 * 16) := by
    rw [List.take_append_of_le_length hle]
  simp only [hq, hlast, htk, p1, p2, p3, if_true, List.take_append_drop, DecryptResult.mk.injEq,
    and_true]
  rw [← Int.natCast_add, ← List.length_append, List.take_append_drop]

/-- The ciphertext `encrypt_buffer` writes has `(n / 16 + 1) * 16` bytes. -/
theorem encrypt_buffer_out_length (c : BlockCipher) (hc : IsBlockCipher c)
    (P key iv : List Nat) (hP : ∀ x ∈ P, x < 256) (hk : IsBytes 32 key) (hiv : IsBytes 16 iv) :
    (encrypt_buffer c P key iv).out.length = (P.length / 16 + 1) * 16 := by
  obtain ⟨hct, _, _⟩ := cbc_encrypt_spec hc hk (P.length / 16 + 1) iv
    (P ++ pkcs_pad P.length) hiv (padded_bytes hP) (by rw [padded_length])
  rw [encrypt_buffer_eq]
  simp only [hct.1]
  ring

/-- C1 (round trip): for every plaintext `P`, every 32-byte key and every 16-byte
iv, `decrypt_buffer` applied with the same key and iv to the ciphertext that
`encrypt_buffer` produced returns the length of `P`, leaves exactly the bytes
of `P` in its output buffer and logs no error. -/
theorem decrypt_encrypt_round_trip (c : BlockCipher) (hc : IsBlockCipher c)
    (P key iv : List Nat) (hP : ∀ x ∈ P, x < 256) (hk : IsBytes 32 key) (hiv : IsBytes 16 iv) :
    (decrypt_buffer c (encrypt_buffer c P key iv).out key iv).ret = (P.length : Int) ∧
    (decrypt_buffer c (encrypt_buffer c P key iv).out key iv).out = P ∧
    (decrypt_buffer c (encrypt_buffer c P key iv).out key iv).log = [] := by
  have h := decrypt_padded c hc P key iv hP hk hiv
  rw [encrypt_buffer_eq]
  simp only
  rw [h]
  exact ⟨rfl, rfl, rfl⟩

/-- The round trip on the three bytes `hi!` under the sample key and iv. -/
theorem decrypt_encrypt_round_trip_witness :
    (decrypt_buffer toyCipher (encrypt_buffer toyCipher [104, 105, 33] toyKey toyIv).out
      toyKey toyIv).ret = 3 ∧
    (decrypt_buffer toyCipher (encrypt_buffer toyCipher [104, 105, 33] toyKey toyIv).out
      toyKey toyIv).out = [104, 105, 33] ∧
    (decrypt_buffer toyCipher (encrypt_buffer toyCipher [104, 105, 33] toyKey toyIv).out
      toyKey toyIv).log = [] :=
  decrypt_encrypt_round_trip toyCipher toyCipher_isBlockCipher [104, 105, 33] toyKey toyIv
    (by decide) (by decide) (by decide)

/-- C2 (padding growth): for every plaintext of `n` bytes, every 32-byte key and
every 16-byte iv, `encrypt_buffer` succeeds, returns `(n / 16 + 1) * 16`, which is
`ceil((n + 1) / 16) * 16`, and writes that many bytes; the result exceeds `n` by 1
to 16 bytes, and by exactly 16 when `n` is a multiple of 16. -/
theorem encrypt_buffer_padding_growth (c : BlockCipher) (hc : IsBlockCipher c)
    (P key iv : List Nat) (hP : ∀ x ∈ P, x < 256) (hk : IsBytes 32 key) (hiv : IsBytes 16 iv) :
    (encrypt_buffer c P key iv).ret = (((P.length / 16 + 1) * 16 : Nat) : Int) ∧
    (encrypt_buffer c P key iv).out.length = (P.length / 16 + 1) * 16 ∧
    (P.length / 16 + 1) * 16 = (P.length + 1 + 15) / 16 * 16 ∧
    (P.length : Int) + 1 ≤ (encrypt_buffer c P key iv).ret ∧
    (encrypt_buffer c P key iv).ret ≤ (P.length : Int) + 16 ∧
    (P.length % 16 = 0 → (encrypt_buffer c P key iv).ret = (P.length : Int) + 16) := by
  obtain ⟨hct, _, _⟩ := cbc_encrypt_spec hc hk (P.length / 16 + 1) iv
    (P ++ pkcs_pad P.length) hiv (padded_bytes hP) (by rw [padded_length])
  rw [encrypt_buffer_eq]
  simp only [hct.1]
  refine ⟨by push_cast; ring, by ring, by omega, by omega, by omega, fun h => by omega⟩

/-- A plaintext of 16 bytes is encrypted to 32 bytes. -/
theorem encrypt_buffer_padding_growth_witness :
    (encrypt_buffer toyCipher (List.replicate 16 65) toyKey toyIv).ret = 32 ∧
    (encrypt_buffer toyCipher (List.replicate 16 65) toyKey toyIv).out.length = 32 :=
  have h := encrypt_buffer_padding_growth toyCipher toyCipher_isBlockCipher (List.replicate 16 65)
    toyKey toyIv (by decide) (by decide) (by decide)
  ⟨h.1, h.2.1⟩

/-! ## The sender -/

theorem strrchr_none {s : List Nat} {ch : Nat} : strrchr s ch = none → ch ∉ s := by
  induction s with
  | nil => intro _; simp
  | cons x xs ih =>
    intro h
    simp only [strrchr] at h
    cases hr : strrchr xs ch with
    | some r => simp [hr] at h
    | none =>
      simp only [hr] at h
      by_cases hx : x = ch
      · simp [hx] at h
      · have := ih hr
        simp only [List.mem_cons, not_or]
        exact ⟨fun e => hx e.symm, this⟩

theorem strrchr_some {s : List Nat} {ch : Nat} {r : List Nat} :
    strrchr s ch = some r → ∃ pre, s = pre ++ ch :: r.drop 1 ∧ ch ∉ r.drop 1 := by
  induction s generalizing r with
  | nil => intro h; simp [strrchr] at h
  | cons x xs ih =>
    intro h
    simp only [strrchr] at h
    cases hr : strrchr xs ch with
    | some r2 =>
      simp only [hr, Option.some.injEq] at h
      subst h
      obtain ⟨pre, h1, h2⟩ := ih hr
      exact ⟨x :: pre, by rw [List.cons_append, ← h1], h2⟩
    | none =>
      simp only [hr] at h
      by_cases hx : x = ch
      · simp only [hx, if_true, Option.some.injEq] at h
        subst h
        exact ⟨[], by simp [hx], by simpa using strrchr_none hr⟩
      · simp [hx] at h

theorem encrypt_buffer_take (c : BlockCipher) (P key iv : List Nat) :
    ¬ (encrypt_buffer c P key iv).ret < 0 ∧
    (encrypt_buffer c P key iv).out.take (encrypt_buffer c P key iv).ret.toNat
      = (encrypt_buffer c P key iv).out := by
  rw [encrypt_buffer_eq]
  simp

/-- While reads return data and sends succeed, the loop of `send_file_socket`
appends the encryption of each chunk to the wire and goes on with the next
read. -/
theorem send_loop_chunks (c : BlockCipher) (key iv : List Nat) (send_ok : Nat → Bool)
    (hs : ∀ k, send_ok k = true) (tail : List (Option (List Nat))) :
    ∀ (chunks : List (List Nat)) (k : Nat) (wire : List Nat),
    (∀ ch ∈ chunks, 0 < ch.length ∧ ch.length ≤ 4096) →
    send_loop c key iv send_ok (chunks.map some ++ tail) k wire
      = send_loop c key iv send_ok tail (k + chunks.length)
          (wire ++ (chunks.map (fun ch => (encrypt_buffer c ch key iv).out)).flatten)
  | [], k, wire, _ => by simp
  | ch :: chunks, k, wire, h => by
    have hch := h ch (List.mem_cons_self _ _)
    have ih := send_loop_chunks c key iv send_ok hs tail chunks (k + 1)
      (wire ++ (encrypt_buffer c ch key iv).out) (fun x hx => h x (List.mem_cons_of_mem _ hx))
    have ht : ch.take MAX_BUFFER = ch := List.take_of_length_le (by simpa [MAX_BUFFER] using hch.2)
    have hpos : ((ch.length : Int) > 0) := by exact_mod_cast hch.1
    obtain ⟨e1, e2⟩ := encrypt_buffer_take c ch key iv
    have hk : k + 1 + chunks.length = k + (chunks.length + 1) := by omega
    rw [hk, List.append_assoc] at ih
    simp only [List.map_cons, List.cons_append, send_loop, ht, hpos, not_true_eq_false, if_false,
      e1, e2, hs, Bool.not_true, Bool.false_eq_true, List.flatten_cons,
      List.length_cons]
    exact ih

/-- Up to the read loop: when the calls before it succeed, `send_file_socket`
has written the final path component, a zero byte, the key and the iv, and
enters the loop. -/
theorem send_file_socket_handshake (c : BlockCipher) (env : SenderEnv) (p key iv : List Nat)
    (ho : env.open_ok = true) (hso : env.socket_ok = true) (hp : env.inet_pton_ok = true)
    (hc : env.connect_ok = true) (hkey : env.rand_key = some key) (hiv : env.rand_iv = some iv)
    (hs : ∀ k, env.send_ok k = true) :
    ∃ name, 47 ∉ name ∧ (p = name ∨ ∃ pre, p = pre ++ 47 :: name) ∧
      send_file_socket c env p
        = send_loop c key iv env.send_ok env.reads 3 (name ++ [0] ++ key ++ iv) := by
  cases hr : strrchr p 47 with
  | none =>
    refine ⟨p, strrchr_none hr, Or.inl rfl, ?_⟩
    simp [send_file_socket, ho, hso, hp, hc, hkey, hiv, hs, hr]
  | some r =>
    obtain ⟨pre, h1, h2⟩ := strrchr_some hr
    refine ⟨r.drop 1, h2, Or.inr ⟨pre, h1⟩, ?_⟩
    simp [send_file_socket, ho, hso, hp, hc, hkey, hiv, hs, hr]

/-- C4 (sender wire sequence): when no call fails and the reads return the
chunks `chunks` (each of 1 to 4096 bytes) and then end-of-file,
`send_file_socket` returns 1 and has written, in this order, the final path
component of `p` (what follows the last slash, or all of `p` when it has none),
one zero byte, the key, the iv, and the concatenation of `encrypt_buffer` of each
chunk under that same key and iv. -/
theorem send_file_socket_wire (c : BlockCipher) (env : SenderEnv) (p key iv : List Nat)
    (chunks : List (List Nat))
    (ho : env.open_ok = true) (hso : env.socket_ok = true) (hp : env.inet_pton_ok = true)
    (hc : env.connect_ok = true) (hkey : env.rand_key = some key) (hiv : env.rand_iv = some iv)
    (hs : ∀ k, env.send_ok k = true) (hr : env.reads = chunks.map some)
    (hch : ∀ ch ∈ chunks, 0 < ch.length ∧ ch.length ≤ 4096) :
    ∃ name, 47 ∉ name ∧ (p = name ∨ ∃ pre, p = pre ++ 47 :: name) ∧
      send_file_socket c env p
        = { ret := 1
            wire := name ++ [0] ++ key ++ iv
              ++ (chunks.map (fun ch => (encrypt_buffer c ch key iv).out)).flatten } := by
  obtain ⟨name, h1, h2, h3⟩ := send_file_socket_handshake c env p key iv ho hso hp hc hkey hiv hs
  refine ⟨name, h1, h2, ?_⟩
  have := send_loop_chunks c key iv env.send_ok hs [] chunks 3 (name ++ [0] ++ key ++ iv) hch
  rw [List.append_nil] at this
  rw [h3, hr, this]
  simp [send_loop]

/-- The wire sequence for the path `/tmp/a` and a file read as one chunk of three
bytes. -/
theorem send_file_socket_wire_witness :
    ∃ name, 47 ∉ name ∧ ([47, 116, 109, 112, 47, 97] = name ∨ ∃ pre, [47, 116, 109, 112, 47, 97] = pre ++ 47 :: name) ∧
      send_file_socket toyCipher (senderEnvOk toyKey toyIv ([[1, 2, 3]].map some)) [47, 116, 109, 112, 47, 97]
        = { ret := 1
            wire := name ++ [0] ++ toyKey ++ toyIv
              ++ ([[1, 2, 3]].map (fun ch => (encrypt_buffer toyCipher ch toyKey toyIv).out)).flatten } :=
  send_file_socket_wire toyCipher (senderEnvOk toyKey toyIv ([[1, 2, 3]].map some))
    [47, 116, 109, 112, 47, 97] toyKey toyIv [[1, 2, 3]] rfl rfl rfl rfl rfl rfl (fun _ => rfl) rfl
    (by decide)

/-- C5 (sender failure reporting), the code at a failing read: when the calls
before the loop succeed and a `read` of the local file returns -1, after any
number of chunks read and sent, `send_file_socket` leaves the loop as at
end-of-file and returns 1. -/
theorem send_file_socket_read_failure (c : BlockCipher) (env : SenderEnv) (p key iv : List Nat)
    (chunks : List (List Nat)) (rest : List (Option (List Nat)))
    (ho : env.open_ok = true) (hso : env.socket_ok = true) (hp : env.inet_pton_ok = true)
    (hc : env.connect_ok = true) (hkey : env.rand_key = some key) (hiv : env.rand_iv = some iv)
    (hs : ∀ k, env.send_ok k = true) (hr : env.reads = chunks.map some ++ none :: rest)
    (hch : ∀ ch ∈ chunks, 0 < ch.length ∧ ch.length ≤ 4096) :
    (send_file_socket c env p).ret = 1 := by
  obtain ⟨name, _, _, h3⟩ := send_file_socket_handshake c env p key iv ho hso hp hc hkey hiv hs
  rw [h3, hr, send_loop_chunks c key iv env.send_ok hs (none :: rest) chunks 3 _ hch]
  simp [send_loop]

/-- A first read that returns -1: the sender still returns 1. -/
theorem send_file_socket_read_failure_witness :
    (send_file_socket toyCipher (senderEnvOk toyKey toyIv [none]) [100, 105, 114]).ret = 1 :=
  send_file_socket_read_failure toyCipher (senderEnvOk toyKey toyIv [none]) [100, 105, 114]
    toyKey toyIv [] [] rfl rfl rfl rfl rfl rfl (fun _ => rfl) rfl (by simp)

/-! ## The receiver loop follows its state machine -/

theorem loop_state_append (q : LoopState) (a b : List Event) :
    loop_state q (a ++ b) = (loop_state q a).bind (fun q2 => loop_state q2 b) := by
  induction a generalizing q with
  | nil => simp [loop_state]
  | cons e a ih =>
    simp only [List.cons_append, loop_state]
    cases loop_step q e with
    | none => simp
    | some q2 => simpa using ih q2

theorem loop_state_emit {q0 q : LoopState} {st : Receiver} (h : loop_state q0 st.trace = some q)
    (e : Event) : loop_state q0 (st.emit e).trace = loop_step q e := by
  simp only [Receiver.emit, loop_state_append, h, Option.some_bind, loop_state]
  cases loop_step q e <;> rfl

theorem loop_state_snoc {q0 q : LoopState} {t : List Event} (h : loop_state q0 t = some q)
    (e : Event) : loop_state q0 (t ++ [e]) = loop_step q e := by
  simp only [loop_state_append, h, Option.some_bind, loop_state]
  cases loop_step q e <;> rfl

/-- A sequence of calls the machine allows is allowed up to every instant. -/
theorem loop_state_take {q0 q : LoopState} {t : List Event} (h : loop_state q0 t = some q)
    (n : Nat) : ∃ q1, loop_state q0 (t.take n) = some q1 ∧ loop_state q1 (t.drop n) = some q := by
  rw [← List.take_append_drop n t, loop_state_append] at h
  cases h1 : loop_state q0 (t.take n) with
  | none => simp [h1] at h
  | some q1 =>
    refine ⟨q1, rfl, ?_⟩
    simpa [h1] using h

/-- Along an allowed sequence of calls the live connections are exactly the
connection of the state reached. -/
theorem live_eq_socks : ∀ (t : List Event) (q : LoopState),
    loop_state .Listening t = some q → live t = q.socks := by
  intro t
  induction t using List.reverseRecOn with
  | nil =>
    intro q h
    simp only [loop_state, Option.some.injEq] at h
    subst h
    rfl
  | append_singleton t e ih =>
    intro q h
    obtain ⟨q1, h1, h2⟩ := loop_state_take h t.length
    simp only [List.take_left, List.drop_left, loop_state] at h1 h2
    have hl := ih q1 h1
    have hlive : live (t ++ [e]) = live_step (live t) e := by simp [live]
    rw [hlive, hl]
    have h3 : loop_step q1 e = some q := by rw [← loop_state_snoc h1 e]; exact h
    cases q1 <;> cases e <;> simp only [loop_step] at h3 <;>
      (try split_ifs at h3) <;>
      (try (simp only [Option.some.injEq] at h3; subst h3)) <;>
      (try subst_vars) <;>
      simp_all [live_step, LoopState.socks]

theorem recv_loop_state (c : BlockCipher) (sock : Nat) (filepath key iv : List Nat) :
    ∀ (conn : Conn) (st : Receiver),
    loop_state .Listening st.trace = some (.Streaming sock) →
    loop_state .Listening (recv_loop c sock filepath key iv conn st).trace
      = some (.Streaming sock)
  | [], st, h => by simp [recv_loop, loop_state_emit h, loop_step]
  | none :: _, st, h => by simp [recv_loop, loop_state_emit h, loop_step]
  | some bytes :: rest, st, h => by
    have h1 := loop_state_emit h (.recv_data sock ((bytes.take MAX_BUFFER).length : Int))
    simp only [loop_step, if_true] at h1
    simp only [recv_loop]
    split
    · exact h1
    · apply recv_loop_state c sock filepath key iv rest
      exact (loop_state_snoc h1 _).trans (by simp [loop_step])

theorem loop_state_emit_to {q q2 : LoopState} {st : Receiver} {e : Event}
    (h : loop_state .Listening st.trace = some q) (hs : loop_step q e = some q2) :
    loop_state .Listening (st.emit e).trace = some q2 :=
  (loop_state_emit h e).trans hs

theorem loop_state_set_key {q : LoopState} {st : Receiver} (k : List Nat)
    (h : loop_state .Listening st.trace = some q) :
    loop_state .Listening (st.set_key k).trace = some q := h

theorem loop_state_set_iv {q : LoopState} {st : Receiver} (v : List Nat)
    (h : loop_state .Listening st.trace = some q) :
    loop_state .Listening (st.set_iv v).trace = some q := h

/-- One turn of the loop body takes the machine from `Handshaking` back to
`Listening`: on every path the connection is closed last. -/
theorem serve_connection_state (c : BlockCipher) (config : FileTransferConfig)
    (env : ReceiverEnv) (sock : Nat) (conn : Conn) (st : Receiver)
    (h : loop_state .Listening st.trace = some (.Handshaking sock)) :
    loop_state .Listening (serve_connection c config env sock conn st).trace
      = some .Listening := by
  have s1 : ∀ n, loop_step (.Handshaking sock) (.recv_filename sock n)
      = some (.Handshaking sock) := fun n => by simp [loop_step]
  have s2 : ∀ n, loop_step (.Handshaking sock) (.recv_key sock n)
      = some (.Handshaking sock) := fun n => by simp [loop_step]
  have s3 : ∀ n, loop_step (.Handshaking sock) (.recv_iv sock n)
      = some (.Handshaking sock) := fun n => by simp [loop_step]
  have s4 : ∀ path, loop_step (.Handshaking sock) (.fopen path false)
      = some (.Handshaking sock) := fun path => by simp [loop_step]
  have s5 : loop_step (.Handshaking sock) (.close sock) = some .Listening := by
    simp [loop_step]
  have s6 : ∀ path, loop_step (.Streaming sock) (.fclose path)
      = some (.Streaming sock) := fun path => by simp [loop_step]
  have s7 : loop_step (.Streaming sock) (.close sock) = some .Listening := by
    simp [loop_step]
  have h1 := loop_state_emit_to h (s1 (recv conn (MAX_BUFFER - 1)).1)
  simp only [serve_connection]
  split
  · exact loop_state_emit_to h1 s5
  have h2 := loop_state_emit_to h1 (s2 (recv (recv conn (MAX_BUFFER - 1)).2.2 AES_KEY_SIZE).1)
  split
  · exact loop_state_emit_to h2 s5
  split
  · exact loop_state_emit_to
      (loop_state_emit_to (loop_state_set_key _ h2) (s3 _)) s5
  split
  · exact loop_state_emit_to (loop_state_emit_to (loop_state_set_iv _
      (loop_state_emit_to (loop_state_set_key _ h2) (s3 _))) (s4 _)) s5
  · refine loop_state_emit_to (loop_state_emit_to ?_ (s6 _)) s7
    apply recv_loop_state
    exact (loop_state_snoc (loop_state_set_iv _
      (loop_state_emit_to (loop_state_set_key _ h2) (s3 _))) _).trans (by simp [loop_step])

/-- Every run of the receiver loop that starts in `Listening` is a path of the
state machine and is in `Listening` after each completed turn. -/
theorem receiver_loop_state (c : BlockCipher) (config : FileTransferConfig) (env : ReceiverEnv) :
    ∀ (conns : List (Option Conn)) (k : Nat) (st : Receiver),
    loop_state .Listening st.trace = some .Listening →
    loop_state .Listening (receiver_loop c config env conns k st).trace = some .Listening
  | [], _, _, h => by simpa [receiver_loop] using h
  | none :: rest, k, st, h => by
    simp only [receiver_loop]
    exact receiver_loop_state c config env rest (k + 1) _
      ((loop_state_emit h .accept_failed).trans (by simp [loop_step]))
  | some conn :: rest, k, st, h => by
    simp only [receiver_loop]
    apply receiver_loop_state c config env rest (k + 1)
    apply serve_connection_state
    exact (loop_state_emit h (.accept k)).trans (by simp [loop_step])

theorem loop_state_next {q1 q : LoopState} {t : List Event} {n : Nat} {e : Event}
    (h : loop_state q1 (t.drop n) = some q) (he : t[n]? = some e) :
    ∃ q2, loop_step q1 e = some q2 := by
  obtain ⟨hn, hget⟩ := List.getElem?_eq_some.mp he
  rw [List.drop_eq_getElem_cons hn, hget] at h
  simp only [loop_state] at h
  cases hs : loop_step q1 e with
  | none => simp [hs] at h
  | some q2 => exact ⟨q2, rfl⟩

theorem file_receive_thread_state (c : BlockCipher) (config : FileTransferConfig)
    (env : ReceiverEnv) (accepts : List (Option Conn)) (fs : FS) :
    loop_state .Listening (file_receive_thread c config env accepts fs).trace = some .Listening := by
  simp only [file_receive_thread]
  split
  · rfl
  split
  · rfl
  split
  · rfl
  split
  · rfl
  exact receiver_loop_state c config env accepts 0 (Receiver.start fs) rfl

/-- C8 (serialization): in every run of `file_receive_thread`, at every instant
`n` of its sequence of calls, the calls made so far are a path of the state
machine `Listening → Handshaking → Streaming → Listening` and the live
connections are exactly the connection of the state reached, so at most one
session is live; a connection is accepted only in `Listening`, when none is
live, and a filename is read only in the handshake of the one live connection,
so every connection accepted before it has been closed. -/
theorem file_receive_thread_serialized (c : BlockCipher) (config : FileTransferConfig)
    (env : ReceiverEnv) (accepts : List (Option Conn)) (fs : FS) (n : Nat) :
    ∃ q, loop_state .Listening ((file_receive_thread c config env accepts fs).trace.take n) = some q ∧
      live ((file_receive_thread c config env accepts fs).trace.take n) = q.socks ∧
      (live ((file_receive_thread c config env accepts fs).trace.take n)).length ≤ 1 ∧
      (∀ s, (file_receive_thread c config env accepts fs).trace[n]? = some (.accept s) →
        q = .Listening ∧ live ((file_receive_thread c config env accepts fs).trace.take n) = []) ∧
      (∀ s m, (file_receive_thread c config env accepts fs).trace[n]? = some (.recv_filename s m) →
        q = .Handshaking s ∧
        live ((file_receive_thread c config env accepts fs).trace.take n) = [s]) := by
  have full := file_receive_thread_state c config env accepts fs
  obtain ⟨q1, h1, h2⟩ := loop_state_take full n
  have hl := live_eq_socks _ q1 h1
  refine ⟨q1, h1, hl, ?_, ?_, ?_⟩
  · rw [hl]; cases q1 <;> simp [LoopState.socks]
  · intro s he
    obtain ⟨q2, h3⟩ := loop_state_next h2 he
    rw [hl]
    cases q1 <;> simp [loop_step, LoopState.socks] at h3 ⊢
  · intro s m he
    obtain ⟨q2, h3⟩ := loop_state_next h2 he
    rw [hl]
    cases q1 <;> simp [loop_step, LoopState.socks] at h3 ⊢
    exact h3.1.symm

/-- Two connections in a row: when the filename of the second is read, the second
is the only live connection. -/
theorem file_receive_thread_serialized_witness :
    live ((file_receive_thread toyCipher mainConfig toyEnv [some [some [97, 0]], some [some [98, 0]]]
      (fun _ => none)).trace.take 5) = [1] :=
  match file_receive_thread_serialized toyCipher mainConfig toyEnv
    [some [some [97, 0]], some [some [98, 0]]] (fun _ => none) 5 with
  | ⟨_, _, _, _, _, h⟩ => (h 1 2 (by decide)).2

/-! ## One session of the receiver -/

theorem c_str_append_zero (bs : List Nat) : c_str (bs ++ [0]) = c_str bs := by
  induction bs with
  | nil => simp [c_str]
  | cons x xs ih =>
    simp only [c_str, List.cons_append, List.takeWhile_cons] at ih ⊢
    split
    · rw [ih]
    · rfl

theorem c_str_of_not_mem {bs : List Nat} (h : 0 ∉ bs) : c_str bs = bs := by
  rw [c_str, List.takeWhile_eq_self_iff]
  intro x hx
  have : x ≠ 0 := fun e => h (e ▸ hx)
  simpa using this

/-- When the three reads of the handshake return data, the loop body computes
the path from the first bytes received, asks `fopen` for it, and on success
streams the rest of the connection into the emptied file. -/
theorem serve_connection_handshake (c : BlockCipher) (config : FileTransferConfig)
    (env : ReceiverEnv) (sock : Nat) (st : Receiver) (bs kb ib : List Nat) (rest : Conn)
    (hbs : 0 < bs.length ∧ bs.length ≤ 4095) (hkb : 0 < kb.length ∧ kb.length ≤ 32)
    (hib : 0 < ib.length ∧ ib.length ≤ 16) :
    serve_connection c config env sock (some bs :: some kb :: some ib :: rest) st =
      if env.fopen_ok (snprintf_path MAX_PATH config.shared_directory (c_str bs)) then
        ((recv_loop c sock (snprintf_path MAX_PATH config.shared_directory (c_str bs))
            (overwrite (st.key.getD env.key0) kb) (overwrite (st.iv.getD env.iv0) ib) rest
            { fs := fopen_wb st.fs (snprintf_path MAX_PATH config.shared_directory (c_str bs))
              trace := st.trace ++ [.recv_filename sock bs.length, .recv_key sock kb.length,
                .recv_iv sock ib.length,
                .fopen (snprintf_path MAX_PATH config.shared_directory (c_str bs)) true]
              key := some (overwrite (st.key.getD env.key0) kb)
              iv := some (overwrite (st.iv.getD env.iv0) ib) }).emit
          (.fclose (snprintf_path MAX_PATH config.shared_directory (c_str bs)))).emit (.close sock)
      else
        { fs := st.fs
          trace := st.trace ++ [.recv_filename sock bs.length, .recv_key sock kb.length,
            .recv_iv sock ib.length,
            .fopen (snprintf_path MAX_PATH config.shared_directory (c_str bs)) false,
            .close sock]
          key := some (overwrite (st.key.getD env.key0) kb)
          iv := some (overwrite (st.iv.getD env.iv0) ib) } := by
  have t1 : bs.take (MAX_BUFFER - 1) = bs := List.take_of_length_le (by simp [MAX_BUFFER]; omega)
  have t2 : kb.take AES_KEY_SIZE = kb := List.take_of_length_le (by simp [AES_KEY_SIZE]; omega)
  have t3 : ib.take AES_BLOCK_SIZE = ib := List.take_of_length_le (by simp [AES_BLOCK_SIZE]; omega)
  have p1 : ¬ ((bs.length : Int) ≤ 0) := by omega
  have p2 : ¬ ((kb.length : Int) ≤ 0) := by omega
  have p3 : ¬ ((ib.length : Int) ≤ 0) := by omega
  simp only [serve_connection, recv, t1, t2, t3, p1, p2, p3, if_false, c_str_append_zero]
  by_cases ho : env.fopen_ok (snprintf_path MAX_PATH config.shared_directory (c_str bs)) = true
  · simp [ho, Receiver.emit, Receiver.set_key, Receiver.set_iv]
  · simp [ho, Receiver.emit, Receiver.set_key, Receiver.set_iv]

/-- The stream loop only appends to the file it was given: what it appends
depends on the connection, the key and the iv, not on the state it starts
from. -/
theorem recv_loop_fs (c : BlockCipher) (filepath key iv : List Nat) :
    ∀ (conn : Conn), ∃ W : List Nat, ∀ (sock : Nat) (st : Receiver) (x : List Nat),
      st.fs filepath = some x →
      (recv_loop c sock filepath key iv conn st).fs filepath = some (x ++ W)
  | [] => ⟨[], fun sock st x h => by simpa [recv_loop, Receiver.emit] using h⟩
  | none :: _ => ⟨[], fun sock st x h => by simpa [recv_loop, Receiver.emit] using h⟩
  | some bytes :: rest => by
    obtain ⟨W, hW⟩ := recv_loop_fs c filepath key iv rest
    by_cases hpos : ((bytes.take MAX_BUFFER).length : Int) > 0
    · refine ⟨(decrypt_buffer c (bytes.take MAX_BUFFER) key iv).out.take
        (decrypt_buffer c (bytes.take MAX_BUFFER) key iv).ret.toNat ++ W, fun sock st x h => ?_⟩
      simp only [recv_loop, hpos, not_true_eq_false, if_false]
      rw [hW sock _ (x ++ (decrypt_buffer c (bytes.take MAX_BUFFER) key iv).out.take
        (decrypt_buffer c (bytes.take MAX_BUFFER) key iv).ret.toNat)]
      · rw [List.append_assoc]
      · simp [fwrite, Receiver.emit, h]
    · refine ⟨[], fun sock st x h => ?_⟩
      simp only [recv_loop, hpos, not_false_eq_true, if_true]
      simpa [Receiver.emit] using h

/-- The stream loop adds calls after those already made, none of them `fopen`. -/
theorem recv_loop_trace (c : BlockCipher) (sock : Nat) (filepath key iv : List Nat) :
    ∀ (conn : Conn) (st : Receiver), ∃ tail : List Event,
      (recv_loop c sock filepath key iv conn st).trace = st.trace ++ tail ∧
      ∀ path ok, Event.fopen path ok ∉ tail
  | [], st => ⟨[.recv_data sock 0], by simp [recv_loop, Receiver.emit]⟩
  | none :: _, st => ⟨[.recv_data sock (-1)], by simp [recv_loop, Receiver.emit]⟩
  | some bytes :: rest, st => by
    simp only [recv_loop]
    split
    · exact ⟨[.recv_data sock ((bytes.take MAX_BUFFER).length : Int)], by simp [Receiver.emit]⟩
    · obtain ⟨tail, h1, h2⟩ := recv_loop_trace c sock filepath key iv rest
        { st.emit (.recv_data sock ((bytes.take MAX_BUFFER).length : Int)) with
          fs := fwrite (st.emit (.recv_data sock ((bytes.take MAX_BUFFER).length : Int))).fs filepath
            ((decrypt_buffer c (bytes.take MAX_BUFFER) key iv).out.take
              (decrypt_buffer c (bytes.take MAX_BUFFER) key iv).ret.toNat)
          trace := (st.emit (.recv_data sock ((bytes.take MAX_BUFFER).length : Int))).trace ++
            [.fwrite filepath ((decrypt_buffer c (bytes.take MAX_BUFFER) key iv).out.take
              (decrypt_buffer c (bytes.take MAX_BUFFER) key iv).ret.toNat)] }
      refine ⟨.recv_data sock ((bytes.take MAX_BUFFER).length : Int) ::
        .fwrite filepath ((decrypt_buffer c (bytes.take MAX_BUFFER) key iv).out.take
              (decrypt_buffer c (bytes.take MAX_BUFFER) key iv).ret.toNat) :: tail, ?_, ?_⟩
      · rw [h1]; simp [Receiver.emit]
      · intro path ok
        simp only [List.mem_cons, not_or]
        exact ⟨by simp, by simp, h2 path ok⟩

/-! ## `decrypt_buffer` on malformed input -/

/-- CBC decryption of `n` blocks yields `16 * n` bytes. -/
theorem cbc_decrypt_length {c : BlockCipher} (hc : IsBlockCipher c) {key : List Nat}
    (hk : IsBytes 32 key) : ∀ (n : Nat) (iv inp : List Nat), IsBytes 16 iv →
    (∀ x ∈ inp, x < 256) → 16 * n ≤ inp.length →
    (cbc_decrypt c key n iv inp).1.length = 16 * n
  | 0, _, _, _, _, _ => by simp [cbc_decrypt]
  | n + 1, iv, inp, hiv, hinp, hl => by
    have hb : IsBytes 16 (inp.take 16) := isBytes_take_16 hinp (by omega)
    obtain ⟨_, hd, _⟩ := hc key _ hk hb
    have hx := xor_block_isBytes hd hiv
    have ih := cbc_decrypt_length hc hk n (inp.take 16) (inp.drop 16) hb
      (fun x hx => hinp x (List.mem_of_mem_drop hx)) (by simp [List.length_drop]; omega)
    simp only [cbc_decrypt, List.length_append, hx.1, ih]
    omega

/-- On a ciphertext whose length is not a multiple of 16 `decrypt_buffer` decrypts
the whole blocks, the final stage fails and is logged, and the function returns
the number of bytes decrypted so far. -/
theorem decrypt_buffer_unaligned (c : BlockCipher) (ct key iv : List Nat)
    (h : ct.length % 16 ≠ 0) :
    decrypt_buffer c ct key iv =
      { ret := ((cbc_decrypt c key (ct.length / 16) iv (ct.take (ct.length / 16 * 16))).1.length : Int)
        out := (cbc_decrypt c key (ct.length / 16) iv (ct.take (ct.length / 16 * 16))).1
        log := [CipherLog.final_failed] } := by
  have h0 : ct.length ≠ 0 := by omega
  have h1 : (ct.take (ct.length / 16 * 16)).length / 16 = ct.length / 16 := by
    rw [take_whole_length]; omega
  have h2 : (ct.drop (ct.length / 16 * 16)).length ≠ 0 := by
    rw [drop_whole_length]; exact h
  have h3 : ¬ (ct.length - ct.length / 16 * 16 = 0) := by omega
  simp only [decrypt_buffer, EVP_DecryptInit_ex, EVP_DecryptUpdate, evp_EncryptDecryptUpdate,
    EVP_DecryptFinal_ex, do_cipher, EVP_CIPHER_CTX_new, h0, List.nil_append, h1, h2]
  simp [handle_error, h3]

/-- C6 (decrypt failure), the code on a malformed ciphertext: for every key and
iv and every ciphertext whose length is not a multiple of 16, `decrypt_buffer`
logs the failure of the final stage and returns the length of the whole blocks
it decrypted, a non-negative number like any plaintext length. -/
theorem decrypt_buffer_malformed (c : BlockCipher) (hc : IsBlockCipher c)
    (ct key iv : List Nat) (hk : IsBytes 32 key) (hiv : IsBytes 16 iv)
    (hct : ∀ x ∈ ct, x < 256) (hmal : ct.length % 16 ≠ 0) :
    (decrypt_buffer c ct key iv).ret = ((ct.length / 16 * 16 : Nat) : Int) ∧
    0 ≤ (decrypt_buffer c ct key iv).ret ∧
    (decrypt_buffer c ct key iv).out.length = ct.length / 16 * 16 ∧
    (decrypt_buffer c ct key iv).log = [CipherLog.final_failed] := by
  have hlen := cbc_decrypt_length hc hk (ct.length / 16) iv (ct.take (ct.length / 16 * 16)) hiv
    (fun x hx => hct x (List.mem_of_mem_take hx)) (by rw [take_whole_length])
  rw [decrypt_buffer_unaligned c ct key iv hmal]
  simp only [hlen]
  refine ⟨by push_cast; ring, by omega, by ring, trivial⟩

/-- Seventeen zero bytes: `decrypt_buffer` logs the failure and returns 16. -/
theorem decrypt_buffer_malformed_witness :
    (decrypt_buffer toyCipher (List.replicate 17 0) toyKey toyIv).ret = 16 ∧
    (decrypt_buffer toyCipher (List.replicate 17 0) toyKey toyIv).log = [CipherLog.final_failed] :=
  have h := decrypt_buffer_malformed toyCipher toyCipher_isBlockCipher (List.replicate 17 0)
    toyKey toyIv (by decide) (by decide) (by decide) (by decide)
  ⟨h.1, h.2.2.2⟩

/-! ## The handshake and the output path -/

/-- The stream loop followed by `fclose` and `close`, started after calls `pre`
whose `fopen` calls are all for `path0`: no `fopen` for another path is added. -/
theorem recv_loop_close_trace (c : BlockCipher) (sock : Nat) (filepath key iv : List Nat)
    (conn : Conn) (fs0 : FS) (base pre : List Event) (k0 v0 : Option (List Nat))
    (path0 : List Nat)
    (hpre : ∀ path ok, Event.fopen path ok ∈ pre → path = path0) :
    ∃ tail : List Event,
      (recv_loop c sock filepath key iv conn
        { fs := fs0, trace := base ++ pre, key := k0, iv := v0 }).trace
          ++ ([.fclose filepath] ++ [.close sock]) = base ++ tail ∧
      ∀ path ok, Event.fopen path ok ∈ tail → path = path0 := by
  obtain ⟨tail, h1, h2⟩ := recv_loop_trace c sock filepath key iv conn
    { fs := fs0, trace := base ++ pre, key := k0, iv := v0 }
  refine ⟨pre ++ tail ++ [.fclose filepath, .close sock], ?_, ?_⟩
  · rw [h1]; simp
  · intro path ok h
    simp only [List.mem_append, List.mem_cons, List.mem_singleton, List.not_mem_nil,
      or_false, reduceCtorEq] at h
    rcases h with h | h
    · exact hpre path ok h
    · exact absurd h (h2 path ok)

/-- The calls one turn of the loop body adds: the only `fopen` among them, if
any, is for the path computed from the bytes of the first `recv`. -/
theorem serve_connection_trace (c : BlockCipher) (config : FileTransferConfig)
    (env : ReceiverEnv) (sock : Nat) (conn : Conn) (st : Receiver) :
    ∃ tail : List Event,
      (serve_connection c config env sock conn st).trace = st.trace ++ tail ∧
      ∀ path ok, Event.fopen path ok ∈ tail →
        path = snprintf_path MAX_PATH config.shared_directory
          (c_str ((recv conn (MAX_BUFFER - 1)).2.1 ++ [0])) := by
  simp only [serve_connection]
  split
  · simp only [Receiver.emit, Receiver.set_key, Receiver.set_iv, List.append_assoc]
    exact ⟨_, rfl, by simp⟩
  split
  · simp only [Receiver.emit, Receiver.set_key, Receiver.set_iv, List.append_assoc]
    exact ⟨_, rfl, by simp⟩
  split
  · simp only [Receiver.emit, Receiver.set_key, Receiver.set_iv, List.append_assoc]
    exact ⟨_, rfl, by simp⟩
  split
  · simp only [Receiver.emit, Receiver.set_key, Receiver.set_iv, List.append_assoc]
    refine ⟨_, rfl, ?_⟩
    intro path ok h
    simp at h
    exact h.1
  · simp only [Receiver.emit, Receiver.set_key, Receiver.set_iv, List.append_assoc]
    apply recv_loop_close_trace
    intro path ok h
    simp at h
    exact h.1

/-- C7 (handshake protocol error), counterexample: on a connection whose first
`recv` returns the single byte 97, with no zero byte, followed by a key and an iv,
the receiver does not abort the session: it calls `fopen` on `received_files/a`,
which succeeds, and the file exists afterwards. -/
theorem handshake_without_nul_counterexample :
    0 ∉ [97] ∧
    Event.fopen (RECEIVE_DIR ++ [47, 97]) true ∈
      (file_receive_thread toyCipher mainConfig toyEnv [some [some [97], some toyKey, some toyIv]]
        (fun _ => none)).trace ∧
    (file_receive_thread toyCipher mainConfig toyEnv [some [some [97], some toyKey, some toyIv]]
        (fun _ => none)).fs (RECEIVE_DIR ++ [47, 97]) = some [] := by
  decide

/-- C7 (handshake protocol error), as amended: for every connection on which the
first `recv` returns bytes without a zero byte and the reads of key and iv return
data, the loop body does not reject the handshake: it terminates the received
bytes itself and calls `fopen` on the directory, a slash and those bytes, cut to
1023 characters; when `fopen` succeeds the file exists after the session. -/
theorem handshake_without_nul_accepted (c : BlockCipher) (config : FileTransferConfig)
    (env : ReceiverEnv) (sock : Nat) (st : Receiver) (bs kb ib : List Nat) (rest : Conn)
    (hbs : 0 < bs.length ∧ bs.length ≤ 4095) (hkb : 0 < kb.length ∧ kb.length ≤ 32)
    (hib : 0 < ib.length ∧ ib.length ≤ 16) (h0 : 0 ∉ bs) :
    Event.fopen ((config.shared_directory ++ [47] ++ bs).take 1023)
        (env.fopen_ok ((config.shared_directory ++ [47] ++ bs).take 1023)) ∈
      (serve_connection c config env sock (some bs :: some kb :: some ib :: rest) st).trace ∧
    (env.fopen_ok ((config.shared_directory ++ [47] ++ bs).take 1023) = true →
      ∃ w, (serve_connection c config env sock (some bs :: some kb :: some ib :: rest) st).fs
        ((config.shared_directory ++ [47] ++ bs).take 1023) = some w) := by
  have hp : snprintf_path MAX_PATH config.shared_directory (c_str bs)
      = (config.shared_directory ++ [47] ++ bs).take 1023 := by
    rw [c_str_of_not_mem h0]; rfl
  rw [serve_connection_handshake c config env sock st bs kb ib rest hbs hkb hib, hp]
  by_cases ho : env.fopen_ok ((config.shared_directory ++ [47] ++ bs).take 1023) = true
  · simp only [ho, if_true, true_implies]
    obtain ⟨tail, h1, _⟩ := recv_loop_trace c sock
      ((config.shared_directory ++ [47] ++ bs).take 1023)
      (overwrite (st.key.getD env.key0) kb) (overwrite (st.iv.getD env.iv0) ib) rest
      { fs := fopen_wb st.fs ((config.shared_directory ++ [47] ++ bs).take 1023)
        trace := st.trace ++ [.recv_filename sock bs.length, .recv_key sock kb.length,
          .recv_iv sock ib.length,
          .fopen ((config.shared_directory ++ [47] ++ bs).take 1023) true]
        key := some (overwrite (st.key.getD env.key0) kb)
        iv := some (overwrite (st.iv.getD env.iv0) ib) }
    obtain ⟨W, hW⟩ := recv_loop_fs c ((config.shared_directory ++ [47] ++ bs).take 1023)
      (overwrite (st.key.getD env.key0) kb) (overwrite (st.iv.getD env.iv0) ib) rest
    constructor
    · simp only [Receiver.emit, h1]
      simp
    · refine ⟨[] ++ W, ?_⟩
      simp only [Receiver.emit]
      exact hW sock _ [] (by simp [fopen_wb])
  · have hf : env.fopen_ok ((config.shared_directory ++ [47] ++ bs).take 1023) = false := by
      simpa using ho
    rw [if_neg ho, hf]
    simp

/-- A filename received as the single byte 97, without a zero byte: `fopen` is
called on `received_files/a`. -/
theorem handshake_without_nul_accepted_witness :
    Event.fopen ((RECEIVE_DIR ++ [47] ++ [97]).take 1023)
        (toyEnv.fopen_ok ((RECEIVE_DIR ++ [47] ++ [97]).take 1023)) ∈
      (serve_connection toyCipher mainConfig toyEnv 0
        (some [97] :: some toyKey :: some toyIv :: []) (Receiver.start (fun _ => none))).trace :=
  (handshake_without_nul_accepted toyCipher mainConfig toyEnv 0 (Receiver.start (fun _ => none))
    [97] toyKey toyIv [] (by decide) (by decide) (by decide) (by decide)).1

/-- C9 (output file location), counterexample: when the filename received is
`../x`, the path given to `fopen` is `received_files/../x`, which is not the
directory, one slash and a single component free of slashes and different from
`..`. -/
theorem output_path_counterexample :
    Event.fopen (RECEIVE_DIR ++ [47, 46, 46, 47, 120]) true ∈
      (file_receive_thread toyCipher mainConfig toyEnv
        [some [some [46, 46, 47, 120, 0], some toyKey, some toyIv]]
        (fun _ => none)).trace ∧
    ¬ ∃ comp : List Nat, RECEIVE_DIR ++ [47, 46, 46, 47, 120] = RECEIVE_DIR ++ 47 :: comp ∧
        47 ∉ comp ∧ comp ≠ [46, 46] := by
  refine ⟨by decide, ?_⟩
  rintro ⟨comp, h1, h2, _⟩
  have : comp = [46, 46, 47, 120] := by
    have := List.append_cancel_left h1
    simpa using this.symm
  subst this
  exact h2 (by decide)

/-- C9 (output file location), as amended: every path the loop body gives to
`fopen` is the first 1023 characters of the directory, one slash and the
received bytes up to their first zero byte, taken as they come; it is the
directory, one slash and a single component free of slashes and different from
`..` whenever the received name is such a component and the whole fits in 1023
characters. -/
theorem output_path_of_received_name (c : BlockCipher) (config : FileTransferConfig)
    (env : ReceiverEnv) (sock : Nat) (fs : FS) (bs : List Nat) (rest : Conn)
    (path : List Nat) (ok : Bool) (hbs : bs.length ≤ 4095)
    (hmem : Event.fopen path ok ∈
      (serve_connection c config env sock (some bs :: rest) (Receiver.start fs)).trace) :
    path = (config.shared_directory ++ [47] ++ c_str bs).take 1023 ∧
    (47 ∉ c_str bs → c_str bs ≠ [46, 46] →
      config.shared_directory.length + 1 + (c_str bs).length ≤ 1023 →
      ∃ comp, path = config.shared_directory ++ 47 :: comp ∧ 47 ∉ comp ∧ comp ≠ [46, 46]) := by
  obtain ⟨tail, h1, h2⟩ := serve_connection_trace c config env sock (some bs :: rest)
    (Receiver.start fs)
  rw [h1] at hmem
  simp only [Receiver.start, List.nil_append] at hmem
  have hp := h2 path ok hmem
  have t1 : bs.take (MAX_BUFFER - 1) = bs := List.take_of_length_le (by simp [MAX_BUFFER]; omega)
  simp only [recv, t1, c_str_append_zero] at hp
  have hp2 : path = (config.shared_directory ++ [47] ++ c_str bs).take 1023 := hp
  refine ⟨hp2, fun hs hd hl => ⟨c_str bs, ?_, hs, hd⟩⟩
  rw [hp2, List.take_of_length_le (by simp; omega)]
  simp

/-- The name `a` received with its zero byte: the path opened is
`received_files/a`. -/
theorem output_path_of_received_name_witness :
    RECEIVE_DIR ++ [47, 97] = (RECEIVE_DIR ++ [47] ++ c_str [97, 0]).take 1023 :=
  (output_path_of_received_name toyCipher mainConfig toyEnv 0 (fun _ => none) [97, 0]
    [some toyKey, some toyIv] (RECEIVE_DIR ++ [47, 97]) true (by decide) (by decide)).1

/-- The names `send_file_socket` sends are free of slashes but not always
different from `..`: for the path `x/..`, a directory that `open` opens and
`read` fails on, it sends `..`, a zero byte, the key and the iv, and returns 1. -/
theorem send_file_socket_sends_dotdot :
    (send_file_socket toyCipher (senderEnvOk toyKey toyIv [none]) [120, 47, 46, 46]).ret = 1 ∧
    (send_file_socket toyCipher (senderEnvOk toyKey toyIv [none]) [120, 47, 46, 46]).wire
      = [46, 46, 0] ++ toyKey ++ toyIv := by
  decide

/-! ## Overwrite -/

theorem written_append (path : List Nat) (a b : List Event) :
    written path (a ++ b) = written path a ++ written path b := by
  induction a with
  | nil => rfl
  | cons e t ih =>
    rw [List.cons_append]
    cases e with
    | fwrite p bytes =>
      simp only [written, ih]
      split <;> simp
    | _ => simp only [written, ih]

/-- The stream loop adds calls after those already made, and the file it was
given holds afterwards what it held before followed by the bytes of the `fwrite`
calls among them. -/
theorem recv_loop_written (c : BlockCipher) (sock : Nat) (filepath key iv : List Nat) :
    ∀ (conn : Conn) (st : Receiver) (x : List Nat), st.fs filepath = some x →
      ∃ tail : List Event,
        (recv_loop c sock filepath key iv conn st).trace = st.trace ++ tail ∧
        (∀ path ok, Event.fopen path ok ∉ tail) ∧
        (recv_loop c sock filepath key iv conn st).fs filepath = some (x ++ written filepath tail)
  | [], st, x, h =>
    ⟨[.recv_data sock 0], by simp [recv_loop, Receiver.emit], by simp,
      by simpa [recv_loop, Receiver.emit, written] using h⟩
  | none :: _, st, x, h =>
    ⟨[.recv_data sock (-1)], by simp [recv_loop, Receiver.emit], by simp,
      by simpa [recv_loop, Receiver.emit, written] using h⟩
  | some bytes :: rest, st, x, h => by
    by_cases hpos : ((bytes.take MAX_BUFFER).length : Int) > 0
    · obtain ⟨tail, h1, h2, h3⟩ := recv_loop_written c sock filepath key iv rest
        { st.emit (.recv_data sock ((bytes.take MAX_BUFFER).length : Int)) with
          fs := fwrite (st.emit (.recv_data sock ((bytes.take MAX_BUFFER).length : Int))).fs filepath
            ((decrypt_buffer c (bytes.take MAX_BUFFER) key iv).out.take
              (decrypt_buffer c (bytes.take MAX_BUFFER) key iv).ret.toNat)
          trace := (st.emit (.recv_data sock ((bytes.take MAX_BUFFER).length : Int))).trace ++
            [.fwrite filepath ((decrypt_buffer c (bytes.take MAX_BUFFER) key iv).out.take
              (decrypt_buffer c (bytes.take MAX_BUFFER) key iv).ret.toNat)] }
        (x ++ (decrypt_buffer c (bytes.take MAX_BUFFER) key iv).out.take
          (decrypt_buffer c (bytes.take MAX_BUFFER) key iv).ret.toNat)
        (by simp [fwrite, Receiver.emit, h])
      refine ⟨.recv_data sock ((bytes.take MAX_BUFFER).length : Int) ::
        .fwrite filepath ((decrypt_buffer c (bytes.take MAX_BUFFER) key iv).out.take
              (decrypt_buffer c (bytes.take MAX_BUFFER) key iv).ret.toNat) :: tail, ?_, ?_, ?_⟩
      · simp only [recv_loop, hpos, not_true_eq_false, if_false]
        rw [h1]; simp [Receiver.emit]
      · intro path ok
        simp only [List.mem_cons, not_or]
        exact ⟨by simp, by simp, h2 path ok⟩
      · simp only [recv_loop, hpos, not_true_eq_false, if_false]
        rw [h3]; simp [written]
    · refine ⟨[.recv_data sock ((bytes.take MAX_BUFFER).length : Int)], ?_, by simp, ?_⟩
      · simp only [recv_loop, hpos, not_false_eq_true, if_true]
        simp [Receiver.emit]
      · simp only [recv_loop, hpos, not_false_eq_true, if_true]
        simpa [Receiver.emit, written] using h

/-- A session whose handshake completes and whose `fopen` succeeds adds its calls
after those already made; the successful `fopen` of its path is among them, and
the file at that path holds afterwards the bytes of the session's `fwrite`
calls, whatever the file system held before. -/
theorem serve_connection_written (c : BlockCipher) (config : FileTransferConfig)
    (env : ReceiverEnv) (sock : Nat) (st : Receiver) (bs kb ib : List Nat) (rest : Conn)
    (hbs : 0 < bs.length ∧ bs.length ≤ 4095) (hkb : 0 < kb.length ∧ kb.length ≤ 32)
    (hib : 0 < ib.length ∧ ib.length ≤ 16)
    (hopen : env.fopen_ok (snprintf_path MAX_PATH config.shared_directory (c_str bs)) = true) :
    ∃ tail : List Event,
      (serve_connection c config env sock (some bs :: some kb :: some ib :: rest) st).trace
        = st.trace ++ tail ∧
      Event.fopen (snprintf_path MAX_PATH config.shared_directory (c_str bs)) true ∈ tail ∧
      (∀ path ok, Event.fopen path ok ∈ tail →
        path = snprintf_path MAX_PATH config.shared_directory (c_str bs) ∧ ok = true) ∧
      (serve_connection c config env sock (some bs :: some kb :: some ib :: rest) st).fs
        (snprintf_path MAX_PATH config.shared_directory (c_str bs))
        = some (written (snprintf_path MAX_PATH config.shared_directory (c_str bs)) tail) := by
  obtain ⟨tail, h1, h2, h3⟩ := recv_loop_written c sock
    (snprintf_path MAX_PATH config.shared_directory (c_str bs))
    (overwrite (st.key.getD env.key0) kb) (overwrite (st.iv.getD env.iv0) ib) rest
    { fs := fopen_wb st.fs (snprintf_path MAX_PATH config.shared_directory (c_str bs))
      trace := st.trace ++ [.recv_filename sock bs.length, .recv_key sock kb.length,
        .recv_iv sock ib.length,
        .fopen (snprintf_path MAX_PATH config.shared_directory (c_str bs)) true]
      key := some (overwrite (st.key.getD env.key0) kb)
      iv := some (overwrite (st.iv.getD env.iv0) ib) } [] (by simp [fopen_wb])
  rw [serve_connection_handshake c config env sock st bs kb ib rest hbs hkb hib, if_pos hopen]
  refine ⟨[.recv_filename sock bs.length, .recv_key sock kb.length, .recv_iv sock ib.length,
      .fopen (snprintf_path MAX_PATH config.shared_directory (c_str bs)) true] ++ tail ++
      [.fclose (snprintf_path MAX_PATH config.shared_directory (c_str bs)), .close sock],
    ?_, by simp, ?_, ?_⟩
  · simp only [Receiver.emit, h1, List.append_assoc, List.singleton_append]
  · intro path ok hm
    simp only [List.mem_append, List.mem_cons, List.mem_singleton, List.not_mem_nil, or_false,
      false_or, reduceCtorEq, Event.fopen.injEq] at hm
    rcases hm with h | h
    · exact h
    · exact absurd h (h2 path ok)
  · simp only [Receiver.emit, h3, List.nil_append]
    rw [written_append, written_append]
    simp [written]

/-- C10 (overwrite): when a session whose handshake completes and whose `fopen`
succeeds follows any earlier session, in particular one received under the same
filename with a longer content, the calls of the second session come after those
of the first, the successful `fopen` of the session's path is among them, and
afterwards the file under that name holds exactly the bytes of the `fwrite` calls
made during the second session, in order, and nothing of what the first session
left there.  This holds for every length the reads of the name, the key and the
iv return. -/
theorem second_session_overwrites (c : BlockCipher) (config : FileTransferConfig)
    (env : ReceiverEnv) (k : Nat) (st : Receiver) (conn1 : Conn) (bs kb ib : List Nat)
    (rest : Conn)
    (hbs : 0 < bs.length ∧ bs.length ≤ 4095) (hkb : 0 < kb.length ∧ kb.length ≤ 32)
    (hib : 0 < ib.length ∧ ib.length ≤ 16)
    (hopen : env.fopen_ok (snprintf_path MAX_PATH config.shared_directory (c_str bs)) = true) :
    ∃ tail2 : List Event,
      (receiver_loop c config env [some conn1, some (some bs :: some kb :: some ib :: rest)] k
        st).trace = (receiver_loop c config env [some conn1] k st).trace ++ tail2 ∧
      Event.fopen (snprintf_path MAX_PATH config.shared_directory (c_str bs)) true ∈ tail2 ∧
      (receiver_loop c config env [some conn1, some (some bs :: some kb :: some ib :: rest)] k
        st).fs (snprintf_path MAX_PATH config.shared_directory (c_str bs))
        = some (written (snprintf_path MAX_PATH config.shared_directory (c_str bs)) tail2) := by
  obtain ⟨tail, h1, h2, _, h3⟩ := serve_connection_written c config env (k + 1)
    ((serve_connection c config env k conn1 (st.emit (.accept k))).emit (.accept (k + 1)))
    bs kb ib rest hbs hkb hib hopen
  refine ⟨.accept (k + 1) :: tail, ?_, List.mem_cons_of_mem _ h2, ?_⟩
  · simp only [receiver_loop]
    rw [h1]
    simp [Receiver.emit]
  · simp only [receiver_loop]
    rw [h3]
    simp [written]

/-- Two sessions under the name `a`: the first brings a full key and eight bytes,
the second a key read of three bytes and one block; the file afterwards holds
what the second session wrote. -/
theorem second_session_overwrites_witness :
    ∃ tail2 : List Event,
      (receiver_loop toyCipher mainConfig toyEnv
        [some [some [97, 0], some toyKey, some toyIv,
            some (encrypt_buffer toyCipher [1, 2, 3, 4, 5, 6, 7, 8] toyKey toyIv).out],
         some (some [97, 0] :: some [7, 8, 9] :: some toyIv ::
            [some (encrypt_buffer toyCipher [9] toyKey toyIv).out])] 0
        (Receiver.start (fun _ => none))).trace
        = (receiver_loop toyCipher mainConfig toyEnv
        [some [some [97, 0], some toyKey, some toyIv,
            some (encrypt_buffer toyCipher [1, 2, 3, 4, 5, 6, 7, 8] toyKey toyIv).out]] 0
        (Receiver.start (fun _ => none))).trace ++ tail2 ∧
      Event.fopen (snprintf_path MAX_PATH mainConfig.shared_directory (c_str [97, 0])) true
        ∈ tail2 ∧
      (receiver_loop toyCipher mainConfig toyEnv
        [some [some [97, 0], some toyKey, some toyIv,
            some (encrypt_buffer toyCipher [1, 2, 3, 4, 5, 6, 7, 8] toyKey toyIv).out],
         some (some [97, 0] :: some [7, 8, 9] :: some toyIv ::
            [some (encrypt_buffer toyCipher [9] toyKey toyIv).out])] 0
        (Receiver.start (fun _ => none))).fs
        (snprintf_path MAX_PATH mainConfig.shared_directory (c_str [97, 0]))
        = some (written (snprintf_path MAX_PATH mainConfig.shared_directory (c_str [97, 0]))
            tail2) :=
  second_session_overwrites toyCipher mainConfig toyEnv 0 (Receiver.start (fun _ => none))
    [some [97, 0], some toyKey, some toyIv,
      some (encrypt_buffer toyCipher [1, 2, 3, 4, 5, 6, 7, 8] toyKey toyIv).out]
    [97, 0] [7, 8, 9] toyIv [some (encrypt_buffer toyCipher [9] toyKey toyIv).out]
    (by decide) (by decide) (by decide) rfl

/-- The `key` array keeps the bytes of the previous session beyond a short read:
after a session with the key `toyKey`, a session whose key read returns the three
bytes 7, 8, 9 decrypts under 7, 8, 9 followed by bytes 3 to 31 of `toyKey`, and
the file holds the three bytes sent under that key in place of the eight of the
first session; the same session run first, on zeroed arrays, leaves the file
empty. -/
theorem short_key_read_keeps_previous_bytes :
    (receiver_loop toyCipher mainConfig toyEnv
      [some [some [113, 0], some toyKey, some toyIv,
          some (encrypt_buffer toyCipher [1, 2, 3, 4, 5, 6, 7, 8] toyKey toyIv).out]] 0
      (Receiver.start (fun _ => none))).fs (RECEIVE_DIR ++ [47, 113])
      = some [1, 2, 3, 4, 5, 6, 7, 8] ∧
    (receiver_loop toyCipher mainConfig toyEnv
      [some [some [113, 0], some toyKey, some toyIv,
          some (encrypt_buffer toyCipher [1, 2, 3, 4, 5, 6, 7, 8] toyKey toyIv).out],
       some [some [113, 0], some [7, 8, 9], some toyIv,
          some (encrypt_buffer toyCipher [7, 8, 9] ([7, 8, 9] ++ toyKey.drop 3) toyIv).out]] 0
      (Receiver.start (fun _ => none))).fs (RECEIVE_DIR ++ [47, 113]) = some [7, 8, 9] ∧
    (receiver_loop toyCipher mainConfig toyEnv
      [some [some [113, 0], some [7, 8, 9], some toyIv,
          some (encrypt_buffer toyCipher [7, 8, 9] ([7, 8, 9] ++ toyKey.drop 3) toyIv).out]] 0
      (Receiver.start (fun _ => none))).fs (RECEIVE_DIR ++ [47, 113]) = some [] := by
  decide

/-! ## End to end: a chunk of 4096 bytes -/

/-- What `decrypt_buffer` leaves for a single block is at most 15 bytes. -/
theorem decrypt_buffer_one_block (c : BlockCipher) (ct key iv : List Nat)
    (h : ct.length = 16) (hiv : iv.length = 16) :
    ((decrypt_buffer c ct key iv).out.take (decrypt_buffer c ct key iv).ret.toNat).length ≤ 15 := by
  rw [decrypt_buffer_aligned c ct key iv 0 (by omega)]
  have hq : (cbc_decrypt c key (0 + 1) iv ct).1.length ≤ 16 := by
    simp only [cbc_decrypt, List.append_nil, xor_block_length, hiv]
    omega
  have hq0 : (cbc_decrypt c key (0 + 1) iv ct).1.length - 16 = 0 := by omega
  simp only [hq0, List.take_zero, List.drop_zero, List.length_nil, List.nil_append]
  split
  · rename_i hp
    have hn : (cbc_decrypt c key (0 + 1) iv ct).1.getLastD 0 ≠ 0 := by
      intro h0
      simp only [padding_ok, h0, bne_self_eq_false, Bool.false_and] at hp
      exact Bool.false_ne_true hp
    refine le_trans (List.length_take_le' _ _) ?_
    refine le_trans (List.length_take_le _ _) ?_
    omega
  · simp

/-- A chunk of 4096 bytes is encrypted to 4112 bytes: the CBC encryption of the
chunk followed by one block for the padding. -/
theorem encrypt_4096 (c : BlockCipher) (hc : IsBlockCipher c) (F key iv : List Nat)
    (hk : IsBytes 32 key) (hiv : IsBytes 16 iv) (hF : IsBytes 4096 F) :
    (encrypt_buffer c F key iv).out.take 4096 = (cbc_encrypt c key 256 iv F).1 ∧
    ((encrypt_buffer c F key iv).out.take 4096).length = 4096 ∧
    ((encrypt_buffer c F key iv).out.drop 4096).length = 16 := by
  obtain ⟨hA, hiv2, _⟩ := cbc_encrypt_spec hc hk 256 iv F hiv hF.2 (by rw [hF.1])
  have hpad : ∀ x ∈ pkcs_pad 4096, x < 256 := fun x hx => by
    have := List.eq_of_mem_replicate hx
    omega
  obtain ⟨hB, _, _⟩ := cbc_encrypt_spec hc hk 1 (cbc_encrypt c key 256 iv F).2 (pkcs_pad 4096)
    hiv2 hpad (by rw [pkcs_pad_length])
  have happ := cbc_encrypt_append c key 1 (pkcs_pad 4096) 256 iv F (by rw [hF.1])
  rw [encrypt_buffer_eq, hF.1]
  have e : 4096 / 16 + 1 = 256 + 1 := by norm_num
  rw [e, happ]
  refine ⟨List.take_left' hA.1, ?_, ?_⟩
  · rw [List.take_left' hA.1]; exact hA.1
  · rw [List.drop_left' hA.1]; exact hB.1

/-- The first 4096 bytes of that ciphertext, decrypted on their own, give the
first 4080 bytes of the chunk when its last byte is zero: the last plaintext
block is held back and fails the padding check. -/
theorem decrypt_first_4096 (c : BlockCipher) (hc : IsBlockCipher c) (F key iv : List Nat)
    (hk : IsBytes 32 key) (hiv : IsBytes 16 iv) (hF : IsBytes 4096 F)
    (hlast : F.getLastD 0 = 0) :
    decrypt_buffer c (cbc_encrypt c key 256 iv F).1 key iv
      = { ret := 4080, out := F.take 4080, log := [CipherLog.final_failed] } := by
  obtain ⟨hA, _, hdec⟩ := cbc_encrypt_spec hc hk 256 iv F hiv hF.2 (by rw [hF.1])
  rw [decrypt_buffer_aligned c _ key iv 255 (by rw [hA.1])]
  have e : 255 + 1 = 256 := rfl
  have hfull : F.take (16 * 256) = F := List.take_of_length_le (by rw [hF.1])
  rw [e, hdec, hfull]
  have hl : (F.drop (F.length - 16)).getLastD 0 = 0 := by
    rw [List.getLastD_eq_getLast?, List.getLast?_drop, if_neg (by rw [hF.1]; omega),
      ← List.getLastD_eq_getLast?, hlast]
  have hbad : padding_ok (F.drop (F.length - 16)) = false := by
    simp only [padding_ok, hl, bne_self_eq_false, Bool.false_and]
  have hlen : (F.take (F.length - 16)).length = 4080 := by
    rw [List.length_take, hF.1]; rfl
  simp only [hbad, Bool.false_eq_true, if_false, hlen]
  rw [hF.1]
  rfl

theorem overwrite_full (old new : List Nat) (h : old.length = new.length) :
    overwrite old new = new := by
  simp [overwrite, List.drop_of_length_le (le_of_eq h)]

/-- A file of 4096 bytes ending in a zero byte, sent under the name `a`: the
sender writes the name, a zero byte, the key, the iv and 4112 bytes of
ciphertext; when the receiver reads the name, the key and the iv each with one
`recv` and then the ciphertext with its reads of at most 4096 bytes, the file it
leaves under `received_files/a` has at most 4095 bytes and so differs from the
file sent. -/
theorem end_to_end_4096_short (c : BlockCipher) (hc : IsBlockCipher c) (F key iv : List Nat)
    (hk : IsBytes 32 key) (hiv : IsBytes 16 iv) (hF : IsBytes 4096 F)
    (hlast : F.getLastD 0 = 0) (env : ReceiverEnv) (hk0 : env.key0.length = 32)
    (hiv0 : env.iv0.length = 16) (hopen : env.fopen_ok (RECEIVE_DIR ++ [47, 97]) = true)
    (fs : FS) :
    send_file_socket c (senderEnvOk key iv [some F]) [97]
      = { ret := 1
          wire := [97, 0] ++ key ++ iv ++ ((encrypt_buffer c F key iv).out.take 4096
            ++ (encrypt_buffer c F key iv).out.drop 4096) } ∧
    ((encrypt_buffer c F key iv).out.take 4096).length = 4096 ∧
    ((encrypt_buffer c F key iv).out.drop 4096).length = 16 ∧
    ∃ w, (receiver_loop c mainConfig env
        [some [some [97, 0], some key, some iv, some ((encrypt_buffer c F key iv).out.take 4096),
          some ((encrypt_buffer c F key iv).out.drop 4096)]] 0 (Receiver.start fs)).fs
        (RECEIVE_DIR ++ [47, 97]) = some w ∧ w.length ≤ 4095 ∧ w ≠ F := by
  obtain ⟨hA, hAl, hBl⟩ := encrypt_4096 c hc F key iv hk hiv hF
  refine ⟨?_, hAl, hBl, ?_⟩
  · obtain ⟨name, hn1, hn2, h3⟩ := send_file_socket_handshake c (senderEnvOk key iv [some F]) [97]
      key iv rfl rfl rfl rfl rfl rfl (fun _ => rfl)
    have hloop := send_loop_chunks c key iv (senderEnvOk key iv [some F]).send_ok (fun _ => rfl) []
      [F] 3 (name ++ [0] ++ key ++ iv)
      (by intro ch hch; rw [List.mem_singleton.mp hch, hF.1]; omega)
    have hreads : (senderEnvOk key iv [some F]).reads = [F].map some ++ [] := rfl
    rw [hreads, hloop] at h3
    have hname : name = [97] := by
      rcases hn2 with h | ⟨pre, h⟩
      · exact h.symm
      · rcases pre with _ | ⟨x, pre⟩
        · simp at h
        · rcases pre with _ | ⟨y, pre⟩ <;> simp at h
    rw [h3, hname]
    simp [send_loop]
  · have d1 := decrypt_first_4096 c hc F key iv hk hiv hF hlast
    rw [← hA] at d1
    have d2 := decrypt_buffer_one_block c ((encrypt_buffer c F key iv).out.drop 4096) key iv
      hBl hiv.1
    have hpath : snprintf_path MAX_PATH mainConfig.shared_directory (c_str [97, 0])
        = RECEIVE_DIR ++ [47, 97] := by decide
    have tA : ((encrypt_buffer c F key iv).out.take 4096).take MAX_BUFFER
        = (encrypt_buffer c F key iv).out.take 4096 :=
      List.take_of_length_le (by rw [hAl]; decide)
    have tB : ((encrypt_buffer c F key iv).out.drop 4096).take MAX_BUFFER
        = (encrypt_buffer c F key iv).out.drop 4096 :=
      List.take_of_length_le (by rw [hBl]; decide)
    have hw1 : (F.take 4080).take (4080 : Int).toNat = F.take 4080 := by
      rw [List.take_take]; rfl
    simp only [receiver_loop]
    rw [serve_connection_handshake c mainConfig env 0 _ [97, 0] key iv _ (by decide)
      (by rw [hk.1]; omega) (by rw [hiv.1]; omega), hpath, if_pos hopen,
      overwrite_full _ _ (by show env.key0.length = key.length; rw [hk0, hk.1]),
      overwrite_full _ _ (by show env.iv0.length = iv.length; rw [hiv0, hiv.1])]
    simp only [recv_loop, tA, tB, hAl, hBl, d1, hw1, Receiver.emit, fwrite, fopen_wb, if_true,
      Option.getD_some, List.nil_append]
    refine ⟨F.take 4080 ++ (decrypt_buffer c ((encrypt_buffer c F key iv).out.drop 4096) key iv).out.take
      (decrypt_buffer c ((encrypt_buffer c F key iv).out.drop 4096) key iv).ret.toNat,
      by simp [fwrite, fopen_wb], ?_, ?_⟩
    · rw [List.length_append, List.length_take, hF.1]
      have : min 4080 4096 = 4080 := rfl
      omega
    · intro hw
      have := congrArg List.length hw
      rw [List.length_append, List.length_take, hF.1] at this
      have h2 : min 4080 4096 = 4080 := rfl
      omega

/-! ## End to end: chunks of at most 4095 bytes, one `recv` per `send` -/

/-- The stream loop, fed the encryption of one chunk of at most 4095 bytes per
`recv`, appends the chunks to the file. -/
theorem recv_loop_encrypted_chunks (c : BlockCipher) (hc : IsBlockCipher c) (sock : Nat)
    (filepath key iv : List Nat) (hk : IsBytes 32 key) (hiv : IsBytes 16 iv) :
    ∀ (chunks : List (List Nat)) (st : Receiver) (x : List Nat),
    (∀ ch ∈ chunks, 0 < ch.length ∧ ch.length ≤ 4095 ∧ ∀ b ∈ ch, b < 256) →
    st.fs filepath = some x →
    (recv_loop c sock filepath key iv
      (chunks.map (fun ch => some (encrypt_buffer c ch key iv).out)) st).fs filepath
      = some (x ++ chunks.flatten)
  | [], st, x, _, hx => by simpa [recv_loop, Receiver.emit] using hx
  | ch :: chunks, st, x, h, hx => by
    obtain ⟨h1, h2, h3⟩ := h ch (List.mem_cons_self _ _)
    have hlen := encrypt_buffer_out_length c hc ch key iv h3 hk hiv
    have hout : (encrypt_buffer c ch key iv).out
        = (cbc_encrypt c key (ch.length / 16 + 1) iv (ch ++ pkcs_pad ch.length)).1 := by
      rw [encrypt_buffer_eq]
    have hdec := decrypt_padded c hc ch key iv h3 hk hiv
    rw [← hout] at hdec
    have ht : (encrypt_buffer c ch key iv).out.take MAX_BUFFER = (encrypt_buffer c ch key iv).out :=
      List.take_of_length_le (by rw [hlen]; simp only [MAX_BUFFER]; omega)
    have hpos : (((encrypt_buffer c ch key iv).out.length : Nat) : Int) > 0 := by
      rw [hlen]; omega
    have hw : ch.take (ch.length : Int).toNat = ch := by simp
    simp only [List.map_cons, recv_loop, ht, hpos, not_true_eq_false, if_false, hdec, hw]
    rw [recv_loop_encrypted_chunks c hc sock filepath key iv hk hiv chunks _ (x ++ ch)
      (fun y hy => h y (List.mem_cons_of_mem _ hy)) (by simp [fwrite, Receiver.emit, hx])]
    simp

theorem final_component_facts {p name : List Nat} (h0 : 0 ∉ p)
    (h : p = name ∨ ∃ pre, p = pre ++ 47 :: name) : 0 ∉ name ∧ name.length ≤ p.length := by
  rcases h with h | ⟨pre, h⟩
  · subst h; exact ⟨h0, le_refl _⟩
  · subst h
    refine ⟨fun hm => h0 (by simp [hm]), ?_⟩
    simp only [List.length_append, List.length_cons]
    omega

/-- C3 (end-to-end identity), counterexample: (1) the session of a 3-byte file
named `a` is a stream of 66 bytes; when the first `recv` of the receiver, which
asks for 4095 bytes, returns all of them, the read of the key finds the stream
at its end, the session is aborted and no file `received_files/a` exists;
(2) for a file of 4096 zero bytes, with one `recv` per `send` and the 4112 bytes
of ciphertext read in pieces of 4096 and 16 bytes, the file received has at
most 4095 bytes. -/
theorem end_to_end_counterexample :
    ((send_file_socket toyCipher (senderEnvOk toyKey toyIv [some [1, 2, 3]]) [97]).wire.length = 66 ∧
     (file_receive_thread toyCipher mainConfig toyEnv
        [some [some (send_file_socket toyCipher (senderEnvOk toyKey toyIv [some [1, 2, 3]]) [97]).wire]]
        (fun _ => none)).fs (RECEIVE_DIR ++ [47, 97]) = none) ∧
    ∃ w, (file_receive_thread toyCipher mainConfig toyEnv
        [some [some [97, 0], some toyKey, some toyIv,
          some ((encrypt_buffer toyCipher (List.replicate 4096 0) toyKey toyIv).out.take 4096),
          some ((encrypt_buffer toyCipher (List.replicate 4096 0) toyKey toyIv).out.drop 4096)]]
        (fun _ => none)).fs
        (RECEIVE_DIR ++ [47, 97]) = some w ∧ w.length ≤ 4095 ∧ w ≠ List.replicate 4096 0 :=
  ⟨by decide,
   (end_to_end_4096_short toyCipher toyCipher_isBlockCipher (List.replicate 4096 0) toyKey toyIv
    (by decide) (by decide)
    ⟨List.length_replicate _ _, fun x hx => by rw [List.eq_of_mem_replicate hx]; omega⟩
    (by rw [List.getLastD_eq_getLast?, List.getLast?_replicate]; rfl)
    toyEnv rfl rfl rfl (fun _ => none)).2.2.2⟩

/-- C3 (end-to-end identity), as amended: when no call of the sender fails, its
reads return chunks of 1 to 4095 bytes each, and every `recv` of the receiver
returns exactly the bytes of one `send` of the sender (the name with its zero
byte, the key, the iv, then one encrypted chunk at a time), then
`send_file_socket` returns 1, and the file `file_receive_thread` leaves in its
directory under the final path component of the sent path holds exactly the
bytes read from the sent file. -/
theorem end_to_end_small_chunks (c : BlockCipher) (hc : IsBlockCipher c)
    (senv : SenderEnv) (renv : ReceiverEnv) (config : FileTransferConfig)
    (p key iv : List Nat) (chunks : List (List Nat)) (fs : FS)
    (ho : senv.open_ok = true) (hso : senv.socket_ok = true) (hp : senv.inet_pton_ok = true)
    (hcn : senv.connect_ok = true) (hkey : senv.rand_key = some key)
    (hivr : senv.rand_iv = some iv) (hs : ∀ k, senv.send_ok k = true)
    (hr : senv.reads = chunks.map some)
    (hk : IsBytes 32 key) (hiv : IsBytes 16 iv)
    (hch : ∀ ch ∈ chunks, 0 < ch.length ∧ ch.length ≤ 4095 ∧ ∀ b ∈ ch, b < 256)
    (hp0 : 0 ∉ p) (hpl : config.shared_directory.length + 1 + p.length ≤ 1023)
    (r1 : renv.socket_ok = true) (r2 : renv.setsockopt_ok = true) (r3 : renv.bind_ok = true)
    (r4 : renv.listen_ok = true) (hfo : ∀ path, renv.fopen_ok path = true)
    (hk0 : renv.key0.length = 32) (hiv0 : renv.iv0.length = 16) :
    ∃ name, 47 ∉ name ∧ (p = name ∨ ∃ pre, p = pre ++ 47 :: name) ∧
      send_file_socket c senv p
        = { ret := 1
            wire := ((name ++ [0]) :: key :: iv ::
              chunks.map (fun ch => (encrypt_buffer c ch key iv).out)).flatten } ∧
      (file_receive_thread c config renv
        [some (some (name ++ [0]) :: some key :: some iv ::
          chunks.map (fun ch => some (encrypt_buffer c ch key iv).out))] fs).fs
        (config.shared_directory ++ 47 :: name) = some chunks.flatten := by
  obtain ⟨name, hn1, hn2, h3⟩ := send_file_socket_handshake c senv p key iv ho hso hp hcn hkey hivr hs
  obtain ⟨hn0, hnl⟩ := final_component_facts hp0 hn2
  refine ⟨name, hn1, hn2, ?_, ?_⟩
  · have hloop := send_loop_chunks c key iv senv.send_ok hs [] chunks 3 (name ++ [0] ++ key ++ iv)
      (fun ch h => ⟨(hch ch h).1, by have := (hch ch h).2.1; omega⟩)
    rw [List.append_nil] at hloop
    rw [h3, hr, hloop]
    simp [send_loop]
  · have hcs : c_str (name ++ [0]) = name := by
      rw [c_str_append_zero, c_str_of_not_mem hn0]
    have hpath : snprintf_path MAX_PATH config.shared_directory name
        = config.shared_directory ++ 47 :: name := by
      simp only [snprintf_path, MAX_PATH]
      rw [List.take_of_length_le (by simp; omega)]
      simp
    simp only [file_receive_thread, r1, r2, r3, r4, Bool.not_true, Bool.false_eq_true, if_false,
      receiver_loop]
    rw [serve_connection_handshake c config renv 0 _ (name ++ [0]) key iv _
      (by simp; omega) (by rw [hk.1]; omega) (by rw [hiv.1]; omega), hcs, hpath,
      if_pos (hfo _),
      overwrite_full _ _ (by show renv.key0.length = key.length; rw [hk0, hk.1]),
      overwrite_full _ _ (by show renv.iv0.length = iv.length; rw [hiv0, hiv.1])]
    simp only [Receiver.emit]
    rw [recv_loop_encrypted_chunks c hc 0 _ key iv hk hiv chunks _ [] hch (by simp [fopen_wb])]
    simp

/-- The file `t/a` of three bytes arrives under `received_files/a` with the same
three bytes. -/
theorem end_to_end_small_chunks_witness :
    ∃ name, 47 ∉ name ∧ ([116, 47, 97] = name ∨ ∃ pre, [116, 47, 97] = pre ++ 47 :: name) ∧
      send_file_socket toyCipher (senderEnvOk toyKey toyIv ([[1, 2, 3]].map some)) [116, 47, 97]
        = { ret := 1
            wire := ((name ++ [0]) :: toyKey :: toyIv ::
              [[1, 2, 3]].map (fun ch => (encrypt_buffer toyCipher ch toyKey toyIv).out)).flatten } ∧
      (file_receive_thread toyCipher mainConfig toyEnv
        [some (some (name ++ [0]) :: some toyKey :: some toyIv ::
          [[1, 2, 3]].map (fun ch => some (encrypt_buffer toyCipher ch toyKey toyIv).out))]
        (fun _ => none)).fs
        (mainConfig.shared_directory ++ 47 :: name) = some [[1, 2, 3]].flatten :=
  end_to_end_small_chunks toyCipher toyCipher_isBlockCipher
    (senderEnvOk toyKey toyIv ([[1, 2, 3]].map some)) toyEnv mainConfig [116, 47, 97] toyKey toyIv
    [[1, 2, 3]] (fun _ => none) rfl rfl rfl rfl rfl rfl (fun _ => rfl) rfl (by decide) (by decide)
    (by decide) (by decide) (by decide) rfl rfl rfl rfl (fun _ => rfl) rfl rfl

/-! ## The length `decrypt_buffer` returns -/

/-- CBC decryption of `n` blocks yields at most `16 * n` bytes, whatever the block
transform returns: each block is cut to the chaining value it is combined with. -/
theorem cbc_decrypt_length_le (c : BlockCipher) (key : List Nat) :
    ∀ (n : Nat) (iv inp : List Nat), iv.length ≤ 16 →
    (cbc_decrypt c key n iv inp).1.length ≤ 16 * n
  | 0, _, _, _ => by simp [cbc_decrypt]
  | n + 1, iv, inp, hiv => by
    have ih := cbc_decrypt_length_le c key n (inp.take 16) (inp.drop 16)
      (List.length_take_le 16 inp)
    simp only [cbc_decrypt, List.length_append, xor_block_length]
    omega

/-- The bytes `decrypt_buffer` leaves in the output buffer are as many as the
length it returns. -/
theorem decrypt_buffer_out_length (c : BlockCipher) (ct key iv : List Nat) :
    (decrypt_buffer c ct key iv).ret = ((decrypt_buffer c ct key iv).out.length : Int) := by
  simp [decrypt_buffer]

/-- On a received chunk that is not empty `decrypt_buffer` leaves at most as many
bytes as the chunk has, whether the final stage succeeds or fails. -/
theorem decrypt_buffer_out_le (c : BlockCipher) (ct key iv : List Nat)
    (hiv : iv.length ≤ 16) (hn : 1 ≤ ct.length) :
    (decrypt_buffer c ct key iv).out.length ≤ ct.length := by
  by_cases h : ct.length % 16 = 0
  · have hm : ct.length = 16 * (ct.length / 16 - 1 + 1) := by omega
    have hq := cbc_decrypt_length_le c key (ct.length / 16 - 1 + 1) iv ct hiv
    rw [decrypt_buffer_aligned c ct key iv (ct.length / 16 - 1) hm]
    simp only
    split
    · simp only [List.length_append, List.length_take, List.length_drop]
      omega
    · simp only [List.length_take]
      omega
  · have hq := cbc_decrypt_length_le c key (ct.length / 16) iv (ct.take (ct.length / 16 * 16)) hiv
    rw [decrypt_buffer_unaligned c ct key iv h]
    simp only
    omega

/-- Every `fwrite` the stream loop adds hands over at most `MAX_BUFFER` bytes, the
size of `decrypted_buffer`. -/
theorem recv_loop_fwrite_le (c : BlockCipher) (sock : Nat) (filepath key iv : List Nat)
    (hiv : iv.length ≤ 16) :
    ∀ (conn : Conn) (st : Receiver) (path bytes : List Nat),
    Event.fwrite path bytes ∈ (recv_loop c sock filepath key iv conn st).trace →
    Event.fwrite path bytes ∈ st.trace ∨ bytes.length ≤ MAX_BUFFER
  | [], st, path, bytes, h => by
    simp only [recv_loop, Receiver.emit, List.mem_append, List.mem_singleton, reduceCtorEq,
      or_false] at h
    exact Or.inl h
  | none :: _, st, path, bytes, h => by
    simp only [recv_loop, Receiver.emit, List.mem_append, List.mem_singleton, reduceCtorEq,
      or_false] at h
    exact Or.inl h
  | some chunk :: rest, st, path, bytes, h => by
    simp only [recv_loop] at h
    split at h
    · simp only [Receiver.emit, List.mem_append, List.mem_singleton, reduceCtorEq,
        or_false] at h
      exact Or.inl h
    · rename_i hpos
      have hlen : 1 ≤ (chunk.take MAX_BUFFER).length := by
        have : ((chunk.take MAX_BUFFER).length : Int) > 0 := not_not.mp hpos
        omega
      have hmax : (chunk.take MAX_BUFFER).length ≤ MAX_BUFFER := List.length_take_le _ _
      have hout := decrypt_buffer_out_le c (chunk.take MAX_BUFFER) key iv hiv hlen
      rcases recv_loop_fwrite_le c sock filepath key iv hiv rest _ path bytes h with h1 | h1
      · simp only [Receiver.emit, List.mem_append, List.mem_singleton, reduceCtorEq, or_false,
          Event.fwrite.injEq] at h1
        rcases h1 with h1 | h1
        · exact Or.inl h1
        · right
          rw [h1.2]
          exact le_trans (List.length_take_le' _ _) (le_trans hout hmax)
      · exact Or.inr h1

/-- C11 (receiver buffer bound): for every key, every 16-byte iv and every
received chunk of `n` bytes with `1 ≤ n ≤ 4096`, well-formed or not, the length
`decrypt_buffer` returns lies between 0 and `n` and so never exceeds 4096, also
when the final stage fails and is only logged; that length is the number of
bytes the call left in the output buffer, so what the stream loop of
`file_receive_thread` hands to `fwrite` are those bytes, and every `fwrite` of the
loop under that iv takes at most the 4096 bytes of `decrypted_buffer`. -/
theorem decrypt_buffer_length_bound (c : BlockCipher) (ct key iv : List Nat)
    (hiv : IsBytes 16 iv) (hn : 1 ≤ ct.length) (hmax : ct.length ≤ 4096) :
    0 ≤ (decrypt_buffer c ct key iv).ret ∧
    (decrypt_buffer c ct key iv).ret ≤ (ct.length : Int) ∧
    (decrypt_buffer c ct key iv).ret ≤ 4096 ∧
    (decrypt_buffer c ct key iv).out.take (decrypt_buffer c ct key iv).ret.toNat
      = (decrypt_buffer c ct key iv).out ∧
    ((decrypt_buffer c ct key iv).out.take (decrypt_buffer c ct key iv).ret.toNat).length
      ≤ MAX_BUFFER ∧
    (∀ (sock : Nat) (filepath : List Nat) (conn : Conn) (fs : FS) (path bytes : List Nat),
      Event.fwrite path bytes ∈
        (recv_loop c sock filepath key iv conn (Receiver.start fs)).trace →
      bytes.length ≤ MAX_BUFFER) := by
  have hle := decrypt_buffer_out_le c ct key iv (le_of_eq hiv.1) hn
  have hret := decrypt_buffer_out_length c ct key iv
  have htake : (decrypt_buffer c ct key iv).out.take (decrypt_buffer c ct key iv).ret.toNat
      = (decrypt_buffer c ct key iv).out := by
    rw [hret, Int.toNat_ofNat, List.take_length]
  refine ⟨by omega, by omega, by omega, htake, ?_, ?_⟩
  · rw [htake]
    simp only [MAX_BUFFER]
    omega
  · intro sock filepath conn fs path bytes h
    rcases recv_loop_fwrite_le c sock filepath key iv (le_of_eq hiv.1) conn (Receiver.start fs)
      path bytes h with h1 | h1
    · simp [Receiver.start] at h1
    · exact h1

/-- A malformed chunk of 17 bytes and a well-formed one of 16 bytes: the lengths
returned, 16 and 3, stay within the chunk. -/
theorem decrypt_buffer_length_bound_witness :
    (0 ≤ (decrypt_buffer toyCipher (List.replicate 17 200) toyKey toyIv).ret ∧
     (decrypt_buffer toyCipher (List.replicate 17 200) toyKey toyIv).ret ≤ 17) ∧
    (0 ≤ (decrypt_buffer toyCipher (encrypt_buffer toyCipher [1, 2, 3] toyKey toyIv).out
        toyKey toyIv).ret ∧
     (decrypt_buffer toyCipher (encrypt_buffer toyCipher [1, 2, 3] toyKey toyIv).out
        toyKey toyIv).ret ≤ 16) :=
  have h1 := decrypt_buffer_length_bound toyCipher (List.replicate 17 200) toyKey toyIv
    (by decide) (by decide) (by decide)
  have h2 := decrypt_buffer_length_bound toyCipher
    (encrypt_buffer toyCipher [1, 2, 3] toyKey toyIv).out toyKey toyIv
    (by decide) (by decide) (by decide)
  ⟨⟨h1.1, h1.2.1⟩, ⟨h2.1, h2.2.1⟩⟩

end WiFiFileTransfer
